import Mathlib

/-!
Shallow embedding of the content-transformation core of the wiki exporter
(Rust sources under src/): the cross-reference store (transform/bulk.rs),
the component merge rules (transform/detail.rs), the embedded-reference
extractor (transform/detail.rs), and the HTML rich-node parser
(transform/html_parser.rs, config.rs).  Strings are modelled as `List Char`
(byte/char indexing agrees on the inputs considered, and all index
arithmetic in the source is relative to pattern occurrences).  External
library behaviour (serde_json parsing, the regex patterns of config.rs,
csscolorparser on hex literals, html5ever DOM construction) is translated
at the call sites where the source uses it.
-/

/-- Model of Rust `char::is_whitespace` (the Unicode White_Space property). -/
def isWsC (c : Char) : Bool :=
  let n := c.toNat
  (9 ≤ n && n ≤ 13) || n == 32 || n == 133 || n == 160 || n == 5760 ||
    (8192 ≤ n && n ≤ 8202) || n == 8232 || n == 8233 || n == 8239 ||
    n == 8287 || n == 12288

/-- Remove trailing characters satisfying `isWsC`. -/
def rdropWs (l : List Char) : List Char :=
  (l.reverse.dropWhile isWsC).reverse

/-- Model of Rust `str::trim` / `trim_matches(char::is_whitespace)`. -/
def trimWs (l : List Char) : List Char :=
  rdropWs (l.dropWhile isWsC)

/-- Bool test: `needle` is a prefix of `hay`. -/
def subPfx : List Char → List Char → Bool
  | [], _ => true
  | _ :: _, [] => false
  | a :: as, b :: bs => a == b && subPfx as bs

/-- Model of Rust `str::contains(substring)`. -/
def containsSub : List Char → List Char → Bool
  | [], needle => subPfx needle []
  | c :: t, needle => subPfx needle (c :: t) || containsSub t needle

/-- ASCII digit test. -/
def isDigitC (c : Char) : Bool := 48 ≤ c.toNat && c.toNat ≤ 57

/-- Hex digit test, as in the regex class `[0-9A-Fa-f]`. -/
def isHexDig (c : Char) : Bool :=
  (48 ≤ c.toNat && c.toNat ≤ 57) || (97 ≤ c.toNat && c.toNat ≤ 102) ||
    (65 ≤ c.toNat && c.toNat ≤ 70)

/-- ASCII lower-casing on code points (model of `to_ascii_lowercase`). -/
def asciiLowerN (n : Nat) : Nat := if 65 ≤ n ∧ n ≤ 90 then n + 32 else n

/-- ASCII lower-casing of a character. -/
def asciiLowerCh (c : Char) : Char :=
  if 65 ≤ c.toNat ∧ c.toNat ≤ 90 then Char.ofNat (c.toNat + 32) else c

/-- ASCII lower-casing of a string (model of `to_lowercase` on ASCII input). -/
def lowerStr (l : List Char) : List Char := l.map asciiLowerCh

/-- Per-character model of Rust `eq_ignore_ascii_case`. -/
def chEqIC (a b : Char) : Bool := asciiLowerN a.toNat == asciiLowerN b.toNat

/-- Model of Rust `str::eq_ignore_ascii_case`. -/
def eqIgnoreCaseL : List Char → List Char → Bool
  | [], [] => true
  | a :: as, b :: bs => chEqIC a b && eqIgnoreCaseL as bs
  | _, _ => false

/-- First-some chaining, model of `Option::or`. -/
def optOr {α : Type} : Option α → Option α → Option α
  | some a, _ => some a
  | none, b => b

/-- Model of `Option::filter`. -/
def optFilter {α : Type} (p : α → Bool) : Option α → Option α
  | some a => if p a then some a else none
  | none => none

/-- Digits to a natural number (most significant first). -/
def digitsToNat (l : List Char) : Nat :=
  l.foldl (fun acc c => acc * 10 + (c.toNat - 48)) 0

/-- Model of Rust `str::parse::<i64>` applied after `trim` (the source always
trims first).  Accepts an optional sign followed by at least one digit, and
enforces the i64 range. -/
def parseStrI64 (s : List Char) : Option Int :=
  let t := trimWs s
  match t with
  | '-' :: ds =>
    if !ds.isEmpty && ds.all isDigitC && digitsToNat ds ≤ 2 ^ 63 then
      some (-(digitsToNat ds : Int))
    else none
  | '+' :: ds =>
    if !ds.isEmpty && ds.all isDigitC && digitsToNat ds < 2 ^ 63 then
      some (digitsToNat ds : Int)
    else none
  | ds =>
    if !ds.isEmpty && ds.all isDigitC && digitsToNat ds < 2 ^ 63 then
      some (digitsToNat ds : Int)
    else none

/-- Split into maximal whitespace-free words; accumulator holds the current
word reversed. -/
def wordsAux : List Char → List Char → List (List Char)
  | [], cur => if cur.isEmpty then [] else [cur.reverse]
  | c :: t, cur =>
    if isWsC c then
      if cur.isEmpty then wordsAux t [] else cur.reverse :: wordsAux t []
    else wordsAux t (c :: cur)

/-- Join words with single spaces. -/
def joinWords : List (List Char) → List Char
  | [] => []
  | [w] => w
  | w :: ws => w ++ ' ' :: joinWords ws

/-- Model of `normalize_whitespace` (html_parser.rs):
`text.split_whitespace().collect::<Vec<_>>().join(" ")`. -/
def normalizeWhitespace (l : List Char) : List Char := joinWords (wordsAux l [])

/-- Entry identifiers are i64 in the source. -/
abbrev EntryId := Int

/-- The rich-node model (model/html.rs `HtmlNode`). -/
inductive HtmlNode where
  | richText (text : List Char) (alignment : Option (List Char))
  | heading (level : Nat) (text : List Char) (alignment : Option (List Char))
  | customEntry (epId : EntryId) (name : List Char) (desc : Option (List Char))
      (iconUrl : List Char) (amount : Int) (displayStyle : List Char)
      (menuId : Option Int)
  | customImage (url : List Char) (alignment : Option (List Char))
  | customRuby (rb : List Char) (rt : List Char)
  | customPost (postId : EntryId) (name : List Char) (iconUrl : List Char)
  | customVideo (url : List Char)
  | customMap (url : List Char)
deriving DecidableEq

/-- Model of `HtmlNode::is_empty_text` (model/html.rs). -/
def HtmlNode.isEmptyText : HtmlNode → Bool
  | .richText text _ => (trimWs text).isEmpty
  | .heading _ text _ => (trimWs text).isEmpty
  | .customRuby rb rt => (trimWs rb).isEmpty && (trimWs rt).isEmpty
  | _ => false

/-- The invariant of claim C6: RichText and Heading nodes carry text whose
trim is non-empty. -/
def goodNodeB : HtmlNode → Bool
  | .richText text _ => !(trimWs text).isEmpty
  | .heading _ text _ => !(trimWs text).isEmpty
  | _ => true

/-! ## Cross-Reference Store (transform/bulk.rs) -/

/-- A raw bulk record (api/model.rs `ApiBulkPage`, the fields used here). -/
structure ApiBulkPage where
  name : Option (List Char) := none
  desc : Option (List Char) := none
  icon_url : Option (List Char) := none

/-- One resolved store record (`BulkInfo`). -/
structure BulkInfo where
  name : Option (List Char) := none
  desc : Option (List Char) := none
  best_icon_url : Option (List Char) := none

/-- A bulk map (`HashMap<EntryId, ApiBulkPage>`), modelled as a function. -/
def BulkMap := EntryId → Option ApiBulkPage

/-- The reserved invalid-file marker substring. -/
def invalidFileMarker : List Char := "invalid-file".toList

/-- Icon validity test of `process_bulk_data`: non-empty and not containing
the invalid-file marker. -/
def iconValid (icon : List Char) : Bool :=
  !icon.isEmpty && !containsSub icon invalidFileMarker

/-- The fallback loop of `process_bulk_data`: scan the fallback maps in
iteration order, take the first valid icon. -/
def fallbackIconScan (fallbacks : List BulkMap) (id : EntryId) :
    Option (List Char) :=
  fallbacks.findSome? fun fb =>
    match fb id with
    | some page =>
      match page.icon_url with
      | some icon => if iconValid icon then some icon else none
      | none => none
    | none => none

/-- Build the `BulkInfo` for one needed id (the loop body of
`process_bulk_data`). -/
def buildBulkInfo (primary : BulkMap) (fallbacks : List BulkMap)
    (id : EntryId) : BulkInfo :=
  let base : BulkInfo :=
    match primary id with
    | some page =>
      { name := page.name, desc := page.desc,
        best_icon_url :=
          match page.icon_url with
          | some icon => if iconValid icon then some icon else none
          | none => none }
    | none => {}
  match base.best_icon_url with
  | some _ => base
  | none => { base with best_icon_url := fallbackIconScan fallbacks id }

/-- The cross-reference store (`BulkStore`), modelled as a function. -/
def BulkStore := EntryId → Option BulkInfo

/-- Model of `process_bulk_data`: for each needed id build the info and keep
it only when at least one field is present. -/
def process_bulk_data (primary : BulkMap) (fallbacks : List BulkMap)
    (ids : List EntryId) : BulkStore :=
  fun id =>
    if ids.contains id then
      let info := buildBulkInfo primary fallbacks id
      if info.name.isSome || info.desc.isSome || info.best_icon_url.isSome
      then some info else none
    else none

/-- Model of `BulkStore::get_name`. -/
def BulkStore.get_name (s : BulkStore) (id : EntryId) : Option (List Char) :=
  (s id).bind (·.name)

/-- Model of `BulkStore::get_icon`. -/
def BulkStore.get_icon (s : BulkStore) (id : EntryId) : Option (List Char) :=
  (s id).bind (·.best_icon_url)

/-- Model of `BulkStore::get_desc`. -/
def BulkStore.get_desc (s : BulkStore) (id : EntryId) : Option (List Char) :=
  (s id).bind (·.desc)

/-! ## Video-collection merge (transform/detail.rs) -/

/-- One output video item (model/output.rs `OutputVideoCollectionItem`). -/
structure OutputVideoCollectionItem where
  video_id : List Char
  title : List Char
  url : List Char
  cover_url : List Char
  duration : Int
deriving DecidableEq

/-- Byte-wise comparison of two strings, the order used by Rust
`String::cmp` (code points agree with bytes on the inputs considered). -/
def cmpStr : List Char → List Char → Ordering
  | [], [] => .eq
  | [], _ :: _ => .lt
  | _ :: _, [] => .gt
  | a :: as, b :: bs =>
    match compare a.toNat b.toNat with
    | .eq => cmpStr as bs
    | o => o

/-- Stable insertion used by the model of `Vec::sort_by` (which is stable):
an element moves right past strictly smaller heads only. -/
def insBy {α : Type} (cmp : α → α → Ordering) (x : α) : List α → List α
  | [] => [x]
  | y :: ys =>
    match cmp x y with
    | .gt => y :: insBy cmp x ys
    | _ => x :: y :: ys

/-- Stable sort by a comparator (model of `Vec::sort_by`). -/
def sortByCmp {α : Type} (cmp : α → α → Ordering) (l : List α) : List α :=
  l.foldr (insBy cmp) []

/-- Tail of the model of `Vec::dedup_by`: `prev` is the last retained
element; a later element equal to it (per `eqf`) is removed. -/
def dedupTail {α : Type} (eqf : α → α → Bool) (prev : α) : List α → List α
  | [] => []
  | y :: ys => if eqf y prev then dedupTail eqf prev ys else y :: dedupTail eqf y ys

/-- Model of `Vec::dedup_by`: keep the first of each run of consecutive
equal elements. -/
def dedupByKeep {α : Type} (eqf : α → α → Bool) : List α → List α
  | [] => []
  | x :: xs => x :: dedupTail eqf x xs

/-- The comparator of the VideoCollection merge arm:
`a.video_id.cmp(&b.video_id)`. -/
def vidCmp (a b : OutputVideoCollectionItem) : Ordering :=
  cmpStr a.video_id b.video_id

/-- Model of the VideoCollection merge arm of `transform_detail_page`
(detail.rs lines 139-146): extend, sort by `video_id`, dedup by
`video_id`. -/
def mergeVideoCollection (existing incoming : List OutputVideoCollectionItem) :
    List OutputVideoCollectionItem :=
  dedupByKeep (fun a b => a.video_id == b.video_id)
    (sortByCmp vidCmp (existing ++ incoming))

/-- The merge as the claim words it (sort by `title`, de-duplicate by
`url`); stated only to be compared against `mergeVideoCollection`. -/
def mergeVideoCollectionClaim (existing incoming : List OutputVideoCollectionItem) :
    List OutputVideoCollectionItem :=
  dedupByKeep (fun a b => a.url == b.url)
    (sortByCmp (fun a b => cmpStr a.title b.title) (existing ++ incoming))

/-- The tail normalization of `transform_video_collection` (detail.rs lines
535-536): sort by title, dedup by url.  This is the per-decode step, not
the merge. -/
def decodeVideoNormalize (videos : List OutputVideoCollectionItem) :
    List OutputVideoCollectionItem :=
  dedupByKeep (fun a b => a.url == b.url)
    (sortByCmp (fun a b => cmpStr a.title b.title) videos)

/-- The video_id sequence of a list of items. -/
def idsOfVideos (l : List OutputVideoCollectionItem) : List (List Char) :=
  l.map (·.video_id)

/-! ## Base-info merge (transform/detail.rs, BaseInfo arm) -/

/-- One output base-info item (model/output.rs `OutputBaseInfoItem`). -/
structure OutputBaseInfoItem where
  key : List Char
  value : Option (List HtmlNode)
  is_material : Option Bool
deriving DecidableEq

/-- Model of the BaseInfo merge arm `existing.extend(new)`. -/
def mergeBaseInfo (existing incoming : List OutputBaseInfoItem) :
    List OutputBaseInfoItem :=
  existing ++ incoming

/-- The keyed component map restricted to base-info values, modelled as a
function. -/
def BaseInfoMap := List Char → Option (List OutputBaseInfoItem)

/-- Folding one decoded base-info component into the component map
(the `Entry::Occupied`/`Entry::Vacant` logic of `transform_detail_page`
specialised to the BaseInfo arm). -/
def insertBaseInfo (m : BaseInfoMap) (k : List Char)
    (items : List OutputBaseInfoItem) : BaseInfoMap :=
  fun k2 =>
    if k2 = k then
      some (match m k with
            | some existing => mergeBaseInfo existing items
            | none => items)
    else m k2

/-- The empty component map. -/
def emptyBaseInfoMap : BaseInfoMap := fun _ => none

/-! ## JSON values and parsing (model of serde_json at the call sites) -/

/-- JSON values (`serde_json::Value`); numbers are restricted to integers,
which covers every numeric payload handled by the embedded-reference
extractor. -/
inductive Json where
  | null
  | boolJ (b : Bool)
  | num (n : Int)
  | str (s : List Char)
  | arr (xs : List Json)
  | obj (kvs : List (List Char × Json))

/-- JSON insignificant whitespace. -/
def jSkipWs (l : List Char) : List Char :=
  l.dropWhile (fun c => c == ' ' || c == '\t' || c == '\n' || c == '\r')

/-- Parse a JSON string body after the opening quote; returns the content
and the input after the closing quote.  Handles the simple escapes. -/
def pjStr : List Char → Option (List Char × List Char)
  | [] => none
  | '"' :: rest => some ([], rest)
  | '\\' :: e :: rest =>
    match pjStr rest with
    | some (s, r) =>
      match e with
      | '"' => some ('"' :: s, r)
      | '\\' => some ('\\' :: s, r)
      | '/' => some ('/' :: s, r)
      | 'n' => some ('\n' :: s, r)
      | 't' => some ('\t' :: s, r)
      | 'r' => some ('\r' :: s, r)
      | _ => none
    | none => none
  | c :: rest =>
    match pjStr rest with
    | some (s, r) => some (c :: s, r)
    | none => none

/-- Parse an (integer) JSON number starting at the given input. -/
def pjNum (l : List Char) : Option (Int × List Char) :=
  let (sign, l1) : Int × List Char :=
    match l with
    | '-' :: r => (-1, r)
    | _ => (1, l)
  let ds := l1.takeWhile isDigitC
  let rest := l1.dropWhile isDigitC
  if ds.isEmpty then none
  else
    match rest with
    | '.' :: _ => none
    | 'e' :: _ => none
    | 'E' :: _ => none
    | _ => some (sign * (digitsToNat ds : Int), rest)

/-- Parser modes: a value, the items of an array after its first element,
or the members of an object. -/
inductive PMode where
  | val
  | arrItems (acc : List Json)
  | objItems (acc : List (List Char × Json))

/-- Fueled recursive-descent JSON parser. -/
def pjF : Nat → PMode → List Char → Option (Json × List Char)
  | 0, _, _ => none
  | Nat.succ f, PMode.val, l =>
    let l := jSkipWs l
    match l with
    | 'n' :: 'u' :: 'l' :: 'l' :: r => some (.null, r)
    | 't' :: 'r' :: 'u' :: 'e' :: r => some (.boolJ true, r)
    | 'f' :: 'a' :: 'l' :: 's' :: 'e' :: r => some (.boolJ false, r)
    | '"' :: r =>
      match pjStr r with
      | some (s, rest) => some (.str s, rest)
      | none => none
    | '[' :: r =>
      let r1 := jSkipWs r
      match r1 with
      | ']' :: r2 => some (.arr [], r2)
      | _ => pjF f (PMode.arrItems []) r1
    | '\x7b' :: r =>
      let r1 := jSkipWs r
      match r1 with
      | '\x7d' :: r2 => some (.obj [], r2)
      | _ => pjF f (PMode.objItems []) r1
    | _ =>
      match pjNum l with
      | some (n, rest) => some (.num n, rest)
      | none => none
  | Nat.succ f, PMode.arrItems acc, l =>
    match pjF f PMode.val l with
    | some (v, r) =>
      let r1 := jSkipWs r
      match r1 with
      | ',' :: r2 => pjF f (PMode.arrItems (v :: acc)) r2
      | ']' :: r2 => some (.arr (v :: acc).reverse, r2)
      | _ => none
    | none => none
  | Nat.succ f, PMode.objItems acc, l =>
    let l1 := jSkipWs l
    match l1 with
    | '"' :: r =>
      match pjStr r with
      | some (k, r1) =>
        let r2 := jSkipWs r1
        match r2 with
        | ':' :: r3 =>
          match pjF f PMode.val r3 with
          | some (v, r4) =>
            let r5 := jSkipWs r4
            match r5 with
            | ',' :: r6 => pjF f (PMode.objItems ((k, v) :: acc)) r6
            | '\x7d' :: r6 => some (.obj ((k, v) :: acc).reverse, r6)
            | _ => none
          | none => none
        | _ => none
      | none => none
    | _ => none

/-- Model of `serde_json::from_str` at the `Value` level: a complete value
followed only by whitespace. -/
def parseJson (s : List Char) : Option Json :=
  match pjF (2 * s.length + 4) PMode.val s with
  | some (v, rest) => if (jSkipWs rest).isEmpty then some v else none
  | none => none

/-- Collect a list of JSON values all of which are objects. -/
def objsOf : List Json → Option (List (List (List Char × Json)))
  | [] => some []
  | Json.obj kvs :: rest =>
    match objsOf rest with
    | some l => some (kvs :: l)
    | none => none
  | _ => none

/-- Model of `from_str::<Vec<Map<String, Value>>>`. -/
def fromStrVecMap (s : List Char) : Option (List (List (List Char × Json))) :=
  match parseJson s with
  | some (Json.arr xs) => objsOf xs
  | _ => none

/-- Model of `from_str::<Map<String, Value>>`. -/
def fromStrMap (s : List Char) : Option (List (List Char × Json)) :=
  match parseJson s with
  | some (Json.obj kvs) => some kvs
  | _ => none

/-- Key lookup in a JSON object (`Map::get`). -/
def objGet (kvs : List (List Char × Json)) (key : List Char) : Option Json :=
  (kvs.find? (fun kv => kv.1 == key)).map (·.2)

/-- Model of `Value::as_str`. -/
def jAsStr : Json → Option (List Char)
  | .str s => some s
  | _ => none

/-- Model of `Value::as_i64` (numbers are integral in this model). -/
def jAsI64 : Json → Option Int
  | .num n => some n
  | _ => none

/-- Model of `util::parse_value_as_optional_i64` (transform/util.rs). -/
def parse_value_as_optional_i64 : Json → Option Int
  | .num n => some n
  | .str s => parseStrI64 s
  | _ => none

/-! ## Embedded-reference extraction (transform/detail.rs) -/

/-- The sentinel opener. -/
def sentOpen : List Char := "$[".toList

/-- The sentinel closer. -/
def sentClose : List Char := "]$".toList

/-- Bool test: `needle` is a suffix of `hay`. -/
def subSfx (hay needle : List Char) : Bool :=
  subPfx needle.reverse hay.reverse

/-- The sentinel interior: `trimmed.get(2..trimmed.len()-2).unwrap_or("")`. -/
def sentInterior (t : List Char) : List Char :=
  if 4 ≤ t.length then (t.drop 2).take (t.length - 4) else []

/-- Parse a sentinel interior as the source does: first as
`Vec<Map<String, Value>>`, then as a single `Map<String, Value>`. -/
def parseSentinelInner (inner : List Char) :
    Option (List (List (List Char × Json))) :=
  match fromStrVecMap inner with
  | some list => some list
  | none =>
    match fromStrMap inner with
    | some m => some [m]
    | none => none

/-- The array-element loop of `parse_materials_value`: returns the collected
maps and the `successfully_parsed_from_array` flag. -/
def arrMatsLoop : List Json → List (List (List Char × Json)) × Bool
  | [] => ([], false)
  | Json.str s :: rest =>
    let (mats, flag) := arrMatsLoop rest
    let t := trimWs s
    if subPfx sentOpen t && subSfx t sentClose then
      let inner := trimWs (sentInterior t)
      if inner.isEmpty then (mats, flag)
      else
        match parseSentinelInner inner with
        | some list => (list ++ mats, true)
        | none => (mats, flag)
    else (mats, flag)
  | Json.obj kvs :: rest =>
    let (mats, flag) := arrMatsLoop rest
    if (objGet kvs ("ep_id".toList)).isSome then (kvs :: mats, true)
    else (mats, flag)
  | _ :: rest => arrMatsLoop rest

/-- The material-map extraction phase of `parse_materials_value` (the part
before `process_material_list`), covering the sentinel-string,
array, object and fallback paths. -/
def extractMats : Json → List (List (List Char × Json))
  | Json.str s =>
    let t := trimWs s
    if subPfx sentOpen t && subSfx t sentClose then
      let inner := trimWs (sentInterior t)
      if inner.isEmpty then []
      else
        match parseSentinelInner inner with
        | some list => list
        | none => []
    else []
  | Json.arr items =>
    let (mats, flag) := arrMatsLoop items
    if flag then mats
    else
      match objsOf items with
      | some list => list
      | none => []
  | Json.obj kvs =>
    if (objGet kvs ("ep_id".toList)).isSome then [kvs] else []
  | _ => []

/-- Default display style (`model/html.rs default_display_style`). -/
def linkStyle : List Char := "link".toList

/-- Model of `process_material_list`: resolve each map with a positive
`ep_id` into a CustomEntry node (store-first for name/icon/desc). -/
def process_material_list (mats : List (List (List Char × Json)))
    (store : BulkStore) : List HtmlNode :=
  match mats with
  | [] => []
  | m :: rest =>
    (match objGet m ("ep_id".toList) with
     | some v =>
       match parse_value_as_optional_i64 v with
       | some ep =>
         if 0 < ep then
           [HtmlNode.customEntry ep
             ((optOr (optFilter (fun s => !s.isEmpty) (BulkStore.get_name store ep))
               ((optOr (objGet m ("name".toList)) (objGet m ("nickname".toList))).bind jAsStr)).getD [])
             (optOr (BulkStore.get_desc store ep)
               ((objGet m ("desc".toList)).bind jAsStr))
             ((optOr (optFilter (fun s => !s.isEmpty) (BulkStore.get_icon store ep))
               ((optOr (optOr (objGet m ("icon".toList)) (objGet m ("icon_url".toList)))
                 (objGet m ("img".toList))).bind jAsStr)).getD [])
             (((objGet m ("amount".toList)).bind jAsI64).getD 0)
             (((objGet m ("display_style".toList)).bind jAsStr).getD linkStyle)
             ((objGet m ("menu_id".toList)).bind parse_value_as_optional_i64)]
         else []
       | none => []
     | none => []) ++ process_material_list rest store

/-- Model of `parse_materials_value`: extract the material maps, then
resolve them against the store. -/
def parse_materials_value (v : Json) (store : BulkStore) : List HtmlNode :=
  process_material_list (extractMats v) store

/-! ## Flush normalization passes (html_parser.rs `RichTextBuilder::flush`,
using `RE_ADJACENT_CLR` and `RE_EMPTY_COLOR` of config.rs) -/

/-- The literal prefix of `RE_ADJACENT_CLR`. -/
def adjPat : List Char := "</color><color=#".toList

/-- The literal `<color=#`. -/
def colorOpenPat : List Char := "<color=#".toList

/-- The literal `</color>`. -/
def colorClosePat : List Char := "</color>".toList

/-- Strip an exact pattern from the front of a list. -/
def stripPat : List Char → List Char → Option (List Char)
  | [], l => some l
  | _ :: _, [] => none
  | p :: ps, c :: cs => if p == c then stripPat ps cs else none

/-- Try to match `RE_ADJACENT_CLR` = `</color><color=#([0-9A-Fa-f]{6,8})>`
at the head of the input.  The bounded greedy repetition followed by `>`
matches exactly when the maximal hex run has length 6 to 8 and is followed
by `>`.  Returns (matched text, capture, rest). -/
def tryAdj (l : List Char) : Option (List Char × List Char × List Char) :=
  match stripPat adjPat l with
  | some l1 =>
    let hex := l1.takeWhile isHexDig
    let l2 := l1.dropWhile isHexDig
    if 6 ≤ hex.length && hex.length ≤ 8 then
      match l2 with
      | c :: r => if c = '>' then some (adjPat ++ hex ++ ['>'], hex, r) else none
      | [] => none
    else none
  | none => none

/-- The last index at which `<color=#` occurs (model of
`str::rfind("<color=#")`). -/
def rfindColorOpen : List Char → Option Nat
  | [] => none
  | c :: t =>
    match rfindColorOpen t with
    | some i => some (i + 1)
    | none => if subPfx colorOpenPat (c :: t) then some 0 else none

/-- The previous-color extraction of the pass-1 loop body: from the text
before the match, find the last `<color=#`, skip to its `#`, and take up to
the next `>`. -/
def prevColorOf (before : List Char) : Option (List Char) :=
  match rfindColorOpen before with
  | some i =>
    let s := before.drop (i + 7)
    match s.findIdx? (fun c => c == '>') with
    | some j => some (s.take j)
    | none => none
  | none => none

/-- The keep-the-match condition of pass 1: the match is re-emitted unless
the previous color equals the captured color ignoring ASCII case. -/
def keepAdj (before cap : List Char) : Bool :=
  !(match prevColorOf before with
    | some p => eqIgnoreCaseL p cap
    | none => false)

/-- Fueled scanner of pass 1 (the `captures_iter` rebuild loop); `before`
is the original text before the current position. -/
def pass1F : Nat → List Char → List Char → List Char
  | 0, _, _ => []
  | Nat.succ f, before, l =>
    match tryAdj l with
    | some (m, cap, rest) =>
      (if keepAdj before cap then m else []) ++ pass1F f (before ++ m) rest
    | none =>
      match l with
      | [] => []
      | c :: t => c :: pass1F f (before ++ [c]) t

/-- Pass 1 of flush normalization. -/
def pass1 (l : List Char) : List Char := pass1F (l.length + 1) [] l

/-- Try to match `RE_EMPTY_COLOR` = `<color=#[0-9A-Fa-f]{6,8}>\s*</color>`
at the head of the input; returns the rest after the match. -/
def tryEC (l : List Char) : Option (List Char) :=
  match stripPat colorOpenPat l with
  | some l1 =>
    let hex := l1.takeWhile isHexDig
    let l2 := l1.dropWhile isHexDig
    if 6 ≤ hex.length && hex.length ≤ 8 then
      match l2 with
      | c :: l3 => if c = '>' then stripPat colorClosePat (l3.dropWhile isWsC) else none
      | [] => none
    else none
  | none => none

/-- Fueled scanner of pass 2 (`replace_all` with the empty string). -/
def pass2F : Nat → List Char → List Char
  | 0, _ => []
  | Nat.succ _, [] => []
  | Nat.succ f, c :: t =>
    match tryEC (c :: t) with
    | some rest => pass2F f rest
    | none => c :: pass2F f t

/-- Pass 2 of flush normalization. -/
def pass2 (l : List Char) : List Char := pass2F (l.length + 1) l

/-- The fixpoint loop of `flush`: run both passes, stop when the length is
unchanged.  Every non-final iteration strictly shrinks the buffer, so fuel
equal to the length suffices. -/
def flushLoopF : Nat → List Char → List Char
  | 0, b => b
  | Nat.succ f, b =>
    let b2 := pass2 (pass1 b)
    if b2.length == b.length then b2 else flushLoopF f b2

/-- The normalized, trimmed text a flush produces from a buffer. -/
def flushedText (buf : List Char) : List Char :=
  trimWs (flushLoopF (buf.length + 1) buf)

/-! ## The rich text builder (html_parser.rs `RichTextBuilder`) -/

/-- The builder state: accumulated buffer, color stack (head is the top),
and the pending-space flag. -/
structure RichTextBuilder where
  buffer : List Char
  colorStack : List (Option (List Char))
  needsSpace : Bool

/-- `RichTextBuilder::new`. -/
def RichTextBuilder.new : RichTextBuilder :=
  { buffer := [], colorStack := [none], needsSpace := false }

/-- `RichTextBuilder::current_color` (the top of the stack). -/
def RichTextBuilder.currentColor (b : RichTextBuilder) : Option (List Char) :=
  match b.colorStack with
  | c :: _ => c
  | [] => none

/-- `RichTextBuilder::push_color`: push the new color, or re-assert the
current one when the tag sets none. -/
def RichTextBuilder.pushColor (b : RichTextBuilder) (hex : Option (List Char)) :
    RichTextBuilder :=
  { b with colorStack := optOr hex (b.currentColor) :: b.colorStack }

/-- `RichTextBuilder::pop_color`: pop only while more than one entry
remains. -/
def RichTextBuilder.popColor (b : RichTextBuilder) : RichTextBuilder :=
  match b.colorStack with
  | _ :: rest@(_ :: _) => { b with colorStack := rest }
  | _ => b

/-- Does the buffer end with a whitespace character? -/
def endsWithWs (l : List Char) : Bool :=
  match l.getLast? with
  | some c => isWsC c
  | none => false

/-- The non-breaking space. -/
def nbspC : Char := Char.ofNat 160

/-- `RichTextBuilder::add_text`. -/
def RichTextBuilder.addText (b : RichTextBuilder) (text : List Char) :
    RichTextBuilder :=
  let cleaned := text.map (fun c => if c == nbspC then ' ' else c)
  let normalized := normalizeWhitespace cleaned
  if !normalized.isEmpty then
    let b1 :=
      if b.needsSpace && !b.buffer.isEmpty && !endsWithWs b.buffer then
        { b with buffer := b.buffer ++ [' '] }
      else b
    let b2 :=
      match b1.currentColor with
      | some hex =>
        { b1 with buffer := b1.buffer ++ colorOpenPat ++ hex ++ '>' ::
            (normalized ++ colorClosePat) }
      | none => { b1 with buffer := b1.buffer ++ normalized }
    { b2 with needsSpace := !endsWithWs normalized }
  else if cleaned.any isWsC then
    if !b.buffer.isEmpty && !endsWithWs b.buffer then
      { b with needsSpace := true }
    else b
  else b

/-- `RichTextBuilder::add_newline`. -/
def RichTextBuilder.addNewline (b : RichTextBuilder) : RichTextBuilder :=
  let b1 :=
    if !b.buffer.isEmpty && !(b.buffer.getLast? == some '\n') then
      { b with buffer := b.buffer ++ ['\n'] }
    else b
  { b1 with needsSpace := false }

/-- `RichTextBuilder::flush`: normalize to a fixed point, trim, and emit a
RichText node when non-empty. -/
def RichTextBuilder.flush (b : RichTextBuilder) (alignment : Option (List Char)) :
    Option HtmlNode :=
  let t := flushedText b.buffer
  if !t.isEmpty then some (HtmlNode.richText t alignment) else none

/-- The flushed nodes as a list (`results.extend(builder.flush(..))`). -/
def flushNodes (b : RichTextBuilder) (alignment : Option (List Char)) :
    List HtmlNode :=
  (b.flush alignment).toList

/-! ## DOM trees (the output of `Html::parse_fragment`) and element helpers -/

mutual
/-- A parsed markup tree.  `Html::parse_fragment` (html5ever) produces such
a tree rooted at an `html` element; concrete trees in the theorems below
are the parses of the markup given in their doc comments.  Tag and
attribute names are stored as the parser yields them (lower-cased by
html5ever for HTML elements; custom tags keep their source spelling and are
lower-cased again by the Rust code before dispatch).  Children are held in
the mutually defined `DomForest` so that structural recursion over the
tree is available. -/
inductive DomNode where
  | text (s : List Char)
  | elem (tag : List Char) (attrs : List (List Char × List Char))
      (children : DomForest)
inductive DomForest where
  | nil
  | cons (head : DomNode) (tail : DomForest)
end

/-- Convert a forest to a list of nodes. -/
def DomForest.toList : DomForest → List DomNode
  | .nil => []
  | .cons c cs => c :: cs.toList

/-- Build a forest from a list of nodes. -/
def forestOfList : List DomNode → DomForest
  | [] => .nil
  | c :: cs => .cons c (forestOfList cs)

/-- Element constructor taking a plain child list. -/
def mkElem (tag : List Char) (attrs : List (List Char × List Char))
    (children : List DomNode) : DomNode :=
  DomNode.elem tag attrs (forestOfList children)

/-- The children of a node (text nodes have none). -/
def DomNode.childrenOf : DomNode → List DomNode
  | .text _ => []
  | .elem _ _ cs => cs.toList

/-- Attribute lookup (`Element::attr`). -/
def attrGet (attrs : List (List Char × List Char)) (name : List Char) :
    Option (List Char) :=
  (attrs.find? (fun kv => kv.1 == name)).map (·.2)

/-- Attribute lookup with the empty-string default (`attr(..).unwrap_or("")`). -/
def attrOr (attrs : List (List Char × List Char)) (name : List Char) :
    List Char :=
  (attrGet attrs name).getD []

mutual
/-- Concatenated descendant text
(`ElementRef::text().collect::<String>()`). -/
def domText : DomNode → List Char
  | .text s => s
  | .elem _ _ cs => domTextForest cs
/-- Concatenated descendant text of a forest. -/
def domTextForest : DomForest → List Char
  | .nil => []
  | .cons c cs => domText c ++ domTextForest cs
end

/-- Model of `extract_plain_text`. -/
def extractPlainText (el : DomNode) : List Char :=
  normalizeWhitespace (domText el)

/-- Split a style attribute on `;` (keeping empty parts, as `str::split`
does). -/
def splitSemi : List Char → List (List Char)
  | [] => [[]]
  | ';' :: t => [] :: splitSemi t
  | c :: t =>
    match splitSemi t with
    | p :: ps => (c :: p) :: ps
    | [] => [[c]]

/-- Model of `get_element_style_color_value`: the value of the first
`color:` property of the `style` attribute. -/
def styleColorValue (attrs : List (List Char × List Char)) :
    Option (List Char) :=
  (attrGet attrs ("style".toList)).bind fun style =>
    (splitSemi style).findSome? fun prop =>
      let p := trimWs prop
      if subPfx ("color:".toList) p then some (trimWs (p.drop 6)) else none

/-- Model of `parse_css_color_to_hex`: csscolorparser restricted to `#RGB`
and `#RRGGBB` literals (the library also accepts other CSS color syntax;
those inputs do not occur in the claims and are mapped to `none`).  The
library trims its input and `to_hex_string()[1..].to_lowercase()` yields
the six lower-case hex digits. -/
def parseCssColorToHex (s : List Char) : Option (List Char) :=
  match trimWs s with
  | '#' :: rest =>
    if rest.length == 6 && rest.all isHexDig then some (lowerStr rest)
    else if rest.length == 3 && rest.all isHexDig then
      some ((lowerStr rest).flatMap (fun c => [c, c]))
    else none
  | _ => none

/-- Model of `get_element_style_color_hex`. -/
def styleColorHex (attrs : List (List Char × List Char)) :
    Option (List Char) :=
  (styleColorValue attrs).bind parseCssColorToHex

/-- Model of `util::get_alignment_style`. -/
def getAlignmentStyle (attrs : List (List Char × List Char)) :
    Option (List Char) :=
  (attrGet attrs ("style".toList)).bind fun style =>
    if containsSub style ("text-align: center".toList) ||
        containsSub style ("text-align:center".toList) then
      some ("center".toList)
    else if containsSub style ("text-align: right".toList) ||
        containsSub style ("text-align:right".toList) then
      some ("right".toList)
    else if containsSub style ("text-align: left".toList) ||
        containsSub style ("text-align:left".toList) then
      some ("left".toList)
    else none

/-- Model of `util::get_alignment_attr`. -/
def getAlignmentAttr (attrs : List (List Char × List Char)) :
    Option (List Char) :=
  ((attrGet attrs ("align".toList)).map (fun s => lowerStr (trimWs s))).bind
    fun s =>
      if s == "left".toList || s == "center".toList || s == "right".toList
      then some s else none

mutual
/-- Document-order search for the first element with the given tag,
considering the node itself and then its subtree. -/
def findTagNode : List Char → DomNode → Option DomNode
  | _, .text _ => none
  | tag, .elem t a cs =>
    if lowerStr t == tag then some (.elem t a cs) else findTagForest tag cs
/-- Document-order search through a forest. -/
def findTagForest : List Char → DomForest → Option DomNode
  | _, .nil => none
  | tag, .cons c cs =>
    match findTagNode tag c with
    | some r => some r
    | none => findTagForest tag cs
end

/-- First descendant with the given tag below an element (model of
`ElementRef::select` with a tag selector, which scans descendants in
document order). -/
def findFirstTag (tag : List Char) (el : DomNode) : Option DomNode :=
  match el with
  | .text _ => none
  | .elem _ _ cs => findTagForest tag cs

/-- Model of `process_custom_element` (html_parser.rs). -/
def processCustomElement (el : DomNode) : Option HtmlNode :=
  match el with
  | DomNode.text _ => none
  | DomNode.elem tag attrs _ =>
    let t := lowerStr tag
    if t == "custom-entry".toList then
      (parseStrI64 (attrOr attrs ("epid".toList))).bind fun id =>
        if 0 < id then
          some (HtmlNode.customEntry id (extractPlainText el)
            (some (trimWs (attrOr attrs ("desc".toList))))
            (trimWs (attrOr attrs ("icon".toList)))
            (((attrGet attrs ("amount".toList)).bind parseStrI64).getD 0)
            (trimWs ((attrGet attrs ("displaystyle".toList)).getD linkStyle))
            ((attrGet attrs ("menuid".toList)).bind parseStrI64))
        else none
    else if t == "custom-image".toList then
      ((attrGet attrs ("url".toList)).map trimWs).bind fun url =>
        if !url.isEmpty then
          some (HtmlNode.customImage url
            (optOr (getAlignmentAttr attrs) (getAlignmentStyle attrs)))
        else none
    else if t == "custom-ruby".toList then
      let rb := normalizeWhitespace
        (((findFirstTag ("rb".toList) el).map domText).getD [])
      let rt := normalizeWhitespace
        (((findFirstTag ("rt".toList) el).map domText).getD [])
      if !rb.isEmpty && !rt.isEmpty then some (HtmlNode.customRuby rb rt)
      else none
    else if t == "custom-post".toList then
      (parseStrI64 (attrOr attrs ("postid".toList))).bind fun id =>
        if 0 < id then
          some (HtmlNode.customPost id (extractPlainText el) [])
        else none
    else if t == "custom-video".toList then
      ((attrGet attrs ("url".toList)).map trimWs).bind fun url =>
        if !url.isEmpty then some (HtmlNode.customVideo url) else none
    else if t == "custom-map".toList then
      ((attrGet attrs ("url".toList)).map trimWs).bind fun url =>
        if !url.isEmpty then some (HtmlNode.customMap url) else none
    else none

/-! ## Tag sets (config.rs) and the recursive parser (html_parser.rs) -/

/-- `HEADING_TAGS`. -/
def headingTags : List (List Char) :=
  ["h1", "h2", "h3", "h4", "h5", "h6"].map String.toList

/-- `HTML_STRIP_TAGS`. -/
def htmlStripTags : List (List Char) :=
  ["style", "script", "meta", "link"].map String.toList

/-- `HTML_BLOCK_TAGS`. -/
def htmlBlockTags : List (List Char) :=
  ["p", "div", "ul", "ol", "blockquote", "figure", "body", "html", "header",
    "footer", "section", "article", "aside", "table", "tbody", "tr", "td",
    "th", "pre"].map String.toList

/-- `HTML_INLINE_TAGS`. -/
def htmlInlineTags : List (List Char) :=
  ["span", "a", "b", "i", "u", "em", "strong", "font", "mark", "small",
    "sub", "sup", "code", "img"].map String.toList

/-- `TARGET_HTML_CUSTOM_TAGS`. -/
def targetCustomTags : List (List Char) :=
  ["custom-entry", "custom-image", "custom-ruby", "custom-post",
    "custom-video", "custom-map"].map String.toList

/-- `MAX_RECURSION_DEPTH` (config.rs). -/
def MAX_RECURSION_DEPTH : Nat := 15

/-- The sentinel emitted when the block recursion depth limit is hit. -/
def depthSentinel : HtmlNode :=
  HtmlNode.richText ("[HTML Depth Limit Exceeded]".toList) none

/-- The text appended when the inline recursion depth limit is hit. -/
def inlineDepthText : List Char := " [Inline Depth Limit] ".toList

/-- Model of `parse::<u8>` on a tag suffix (no trim in the source here). -/
def parseStrU8 (s : List Char) : Option Nat :=
  match s with
  | '+' :: ds =>
    if !ds.isEmpty && ds.all isDigitC && digitsToNat ds ≤ 255 then
      some (digitsToNat ds)
    else none
  | ds =>
    if !ds.isEmpty && ds.all isDigitC && digitsToNat ds ≤ 255 then
      some (digitsToNat ds)
    else none

/-- One step of the inline child loop of `process_nested_inline_children`;
`rec` is the recursive call for nested inline elements (one depth level
down). -/
def inlineStep (rec : DomNode → RichTextBuilder → RichTextBuilder)
    (b : RichTextBuilder) (child : DomNode) : RichTextBuilder :=
  match child with
  | DomNode.text s => b.addText s
  | DomNode.elem ctag cattrs _ =>
    let t := lowerStr ctag
    if htmlStripTags.contains t then b
    else if t == "br".toList || t == "hr".toList then b.addNewline
    else if htmlInlineTags.contains t then
      ((rec child (b.pushColor (styleColorHex cattrs)))).popColor
    else if targetCustomTags.contains t then
      if t == "custom-ruby".toList then
        match processCustomElement child with
        | some (HtmlNode.customRuby rb rt) =>
          { b with buffer := b.buffer ++ rb ++ '(' :: (rt ++ [')']),
                   needsSpace := true }
        | _ => b.addText (extractPlainText child)
      else b.addText (extractPlainText child)
    else b.addText (extractPlainText child)

/-- Model of `process_nested_inline_children`, fueled by the remaining
descent budget (each nested inline element costs one unit; the depth guard
at entry makes the budget `MAX_RECURSION_DEPTH + 2` always sufficient). -/
def procInlineF : Nat → DomNode → RichTextBuilder → Nat → RichTextBuilder
  | 0, _, b, _ => b
  | Nat.succ f, el, b, depth =>
    if MAX_RECURSION_DEPTH < depth then b.addText inlineDepthText
    else
      el.childrenOf.foldl
        (inlineStep (fun child b2 => procInlineF f child b2 (depth + 1))) b

/-- Emit a merged run (`if !text.trim().is_empty() { merged.push(..) }`). -/
def emitRT (t : List Char) (a : Option (List Char)) : List HtmlNode :=
  if (trimWs t).isEmpty then [] else [HtmlNode.richText t a]

/-- Append a continuation to a run: newline separator unless the run is
empty or already ends with a newline. -/
def runAppend (t nt : List Char) : List Char :=
  (if !t.isEmpty && !(t.getLast? == some '\n') then t ++ ['\n'] else t) ++ nt

/-- Model of `merge_consecutive_rich_text_nodes`; the optional state is the
RichText run currently being merged.  Fuel counts consumed nodes, so one
unit per input node suffices. -/
def mergeRunF : Nat → Option (List Char × Option (List Char)) →
    List HtmlNode → List HtmlNode
  | 0, _, _ => []
  | Nat.succ _, none, [] => []
  | Nat.succ _, some (t, a), [] => emitRT t a
  | Nat.succ f, none, n :: rest =>
    match n with
    | HtmlNode.richText t a => mergeRunF f (some (t, a)) rest
    | n => n :: mergeRunF f none rest
  | Nat.succ f, some (t, a), n :: rest =>
    match n with
    | HtmlNode.richText nt na =>
      if a == na && !(trimWs nt).isEmpty then
        mergeRunF f (some (runAppend t nt, a)) rest
      else emitRT t a ++ mergeRunF f (some (nt, na)) rest
    | n => emitRT t a ++ n :: mergeRunF f none rest

/-- Merge consecutive same-alignment RichText nodes. -/
def mergeNodes (l : List HtmlNode) : List HtmlNode :=
  mergeRunF (l.length + 1) none l

/-- Re-target a CustomImage without alignment to the enclosing block's
alignment (the `node_align` adjustment in `parse_element_recursive`). -/
def imageAlignFix (alignment : Option (List Char)) : HtmlNode → HtmlNode
  | HtmlNode.customImage url none => HtmlNode.customImage url alignment
  | n => n

/-- One step of the block child loop of `parse_element_recursive`; `recE`
is the recursive block parse and `recI` the inline walk, both one depth
level down. -/
def blockStep (recE : DomNode → Nat → List HtmlNode)
    (recI : DomNode → RichTextBuilder → Nat → RichTextBuilder)
    (depth : Nat) (alignment : Option (List Char))
    (acc : List HtmlNode × RichTextBuilder) (child : DomNode) :
    List HtmlNode × RichTextBuilder :=
  match child with
  | DomNode.text s => (acc.1, acc.2.addText s)
  | DomNode.elem ctag cattrs _ =>
    let t := lowerStr ctag
    if htmlStripTags.contains t then acc
    else if headingTags.contains t then
      let res := acc.1 ++ flushNodes acc.2 alignment
      let res :=
        match parseStrU8 (t.drop 1) with
        | some level =>
          let text := extractPlainText child
          let align := optOr (getAlignmentStyle cattrs) alignment
          if !text.isEmpty then res ++ [HtmlNode.heading level text align]
          else res
        | none => res
      (res, RichTextBuilder.new)
    else if targetCustomTags.contains t then
      let res := acc.1 ++ flushNodes acc.2 alignment
      let res :=
        match processCustomElement child with
        | some node => res ++ [imageAlignFix alignment node]
        | none => res
      (res, RichTextBuilder.new)
    else if htmlBlockTags.contains t || t == "li".toList then
      (acc.1 ++ flushNodes acc.2 alignment ++ recE child (depth + 1),
        RichTextBuilder.new)
    else if t == "br".toList || t == "hr".toList then
      (acc.1, acc.2.addNewline)
    else if htmlInlineTags.contains t then
      (acc.1,
        (recI child (acc.2.pushColor (styleColorHex cattrs)) (depth + 1)).popColor)
    else
      (acc.1 ++ flushNodes acc.2 alignment ++ recE child (depth + 1),
        RichTextBuilder.new)

/-- Model of `parse_element_recursive`, fueled by the remaining descent
budget.  The depth guard at entry returns the sentinel without recursing,
so a budget of `MAX_RECURSION_DEPTH + 2` from depth 0 never exhausts the
fuel. -/
def parseElemF : Nat → DomNode → Nat → List HtmlNode
  | 0, _, _ => []
  | Nat.succ _, DomNode.text _, _ => []
  | Nat.succ f, DomNode.elem _tag attrs children, depth =>
    if MAX_RECURSION_DEPTH < depth then [depthSentinel]
    else
      let alignment := getAlignmentStyle attrs
      let st := children.toList.foldl
        (blockStep (fun child d => parseElemF f child d)
          (fun child b d => procInlineF f child b d) depth alignment)
        ([], RichTextBuilder.new)
      let results := st.1 ++ flushNodes st.2 alignment
      mergeNodes (results.filter (fun n => !n.isEmptyText))

/-- Model of `parse_element_recursive` at its Rust signature. -/
def parse_element_recursive (el : DomNode) (depth : Nat) : List HtmlNode :=
  parseElemF (MAX_RECURSION_DEPTH + 2) el depth

/-- Parse a fragment from its DOM root (the `parse_element_recursive`
invocation of `parse_html_content`). -/
def parse_fragment_nodes (root : DomNode) : List HtmlNode :=
  parse_element_recursive root 0

/-! ## Slash cleanup (html_parser.rs `clean_consecutive_slashes`) -/

/-- Model of `str::replace("//", "/")` (leftmost non-overlapping). -/
def replaceSlash : List Char → List Char
  | '/' :: '/' :: t => '/' :: replaceSlash t
  | c :: t => c :: replaceSlash t
  | [] => []

/-- The substring `//`. -/
def slashSlash : List Char := "//".toList

/-- The `while cleaned.contains("//")` loop, fueled; each iteration
strictly shrinks the string, so length-based fuel suffices. -/
def cleanF : Nat → List Char → List Char
  | 0, _ => []
  | Nat.succ f, l =>
    if containsSub l slashSlash then cleanF f (replaceSlash l) else l

/-- Model of `clean_consecutive_slashes`. -/
def clean_consecutive_slashes (l : List Char) : List Char :=
  cleanF (l.length + 1) l

/-! ## Custom-entry resolution post-pass (html_parser.rs
`post_process_html_nodes`) -/

/-- Per-node resolution of `post_process_html_nodes`: CustomEntry takes the
store name/icon or empty and the store desc or the inline desc; CustomPost
takes the store name/icon or empty. -/
def postNode (store : BulkStore) : HtmlNode → HtmlNode
  | HtmlNode.customEntry ep _ desc _ amount ds mid =>
    HtmlNode.customEntry ep
      ((BulkStore.get_name store ep).getD [])
      (optOr (BulkStore.get_desc store ep) desc)
      ((BulkStore.get_icon store ep).getD [])
      amount ds mid
  | HtmlNode.customPost pid _ _ =>
    HtmlNode.customPost pid
      ((BulkStore.get_name store pid).getD [])
      ((BulkStore.get_icon store pid).getD [])
  | n => n

/-- Model of `post_process_html_nodes`. -/
def post_process_html_nodes (nodes : List HtmlNode) (store : BulkStore) :
    List HtmlNode :=
  nodes.map (postNode store)

/-! ## Concrete inputs used by the claims -/

/-- Does some position of the input match `RE_EMPTY_COLOR`? -/
def hasM : List Char → Bool
  | [] => false
  | c :: t => (tryEC (c :: t)).isSome || hasM t

/-- The C1 fragment
`<span style="color:#FF0000">a</span><span style="color:#ff0000">b</span>`
as parsed by `Html::parse_fragment` (two inline spans under the fragment's
`html` root, each with one text child). -/
def c1dom : DomNode :=
  mkElem ("html".toList) []
    [mkElem ("span".toList) [("style".toList, "color:#FF0000".toList)]
       [DomNode.text ("a".toList)],
     mkElem ("span".toList) [("style".toList, "color:#ff0000".toList)]
       [DomNode.text ("b".toList)]]

/-- A markup fragment nested `n` levels deep in `div` elements with a text
leaf. -/
def nestedDivs : Nat → DomNode
  | 0 => DomNode.text ("x".toList)
  | Nat.succ n => mkElem ("div".toList) [] [nestedDivs n]

/-- The C10 input markup
`<span>a/<custom-ruby><rb>/x</rb><rt>y</rt></custom-ruby></span>`;
it contains no two consecutive slashes. -/
def c10input : List Char :=
  "<span>a/<custom-ruby><rb>/x</rb><rt>y</rt></custom-ruby></span>".toList

/-- The parse of `c10input` by `Html::parse_fragment`. -/
def c10dom : DomNode :=
  mkElem ("html".toList) []
    [mkElem ("span".toList) []
      [DomNode.text ("a/".toList),
       mkElem ("custom-ruby".toList) []
         [mkElem ("rb".toList) [] [DomNode.text ("/x".toList)],
          mkElem ("rt".toList) [] [DomNode.text ("y".toList)]]]]

/-- The C5 sentinel string `$[{"ep_id":7,"amount":3}]$`. -/
def c5str : List Char := "$[\x7b\"ep_id\":7,\"amount\":3\x7d]$".toList

/-- The empty cross-reference store. -/
def emptyStore : BulkStore := fun _ => none

/-- C4 witness: primary record for id 7 whose icon carries the invalid-file
marker. -/
def c4primaryInvalid : BulkMap := fun i =>
  if i == 7 then
    some { name := some ("n".toList), icon_url := some ("invalid-file-x".toList) }
  else none

/-- C4 witness: fallback record for id 7 with a valid icon. -/
def c4fallbackValid : BulkMap := fun i =>
  if i == 7 then some { icon_url := some ("icon.png".toList) } else none

/-- C4 witness: primary record for id 7 with an empty icon. -/
def c4primaryEmptyIcon : BulkMap := fun i =>
  if i == 7 then some { name := some ("n".toList), icon_url := some [] } else none

/-- C2 counterexample node: a `<custom-entry epid="5" icon="ic">foo</custom-entry>`
element. -/
def c2elem : DomNode :=
  mkElem ("custom-entry".toList)
    [("epid".toList, "5".toList), ("icon".toList, "ic".toList)]
    [DomNode.text ("foo".toList)]

/-! ## Theorems -/

set_option maxRecDepth 8000

/-- C1 counterexample: the fragment
`<span style="color:#FF0000">a</span><span style="color:#ff0000">b</span>`
does not parse to a RichText node with text `<color=#ff0000>a b</color>`:
the separating space is inserted between the two color wrappers, and the
adjacent-wrapper collapse pattern `</color><color=#..>` requires immediate
adjacency, so it never fires here. -/
theorem claim_C1_counterexample :
    parse_fragment_nodes c1dom ≠
      [HtmlNode.richText ("<color=#ff0000>a b</color>".toList) none] := by
  decide

/-- C1 amended: the fragment parses to a single RichText node whose text is
`<color=#ff0000>a</color> <color=#ff0000>b</color>`: the two
identical-color spans are joined by a single space, but each keeps its own
color wrapper because the close/open pair is separated by that space. -/
theorem claim_C1_amended :
    parse_fragment_nodes c1dom =
      [HtmlNode.richText
        ("<color=#ff0000>a</color> <color=#ff0000>b</color>".toList) none] := by
  decide

/-- C7: with the hard recursion limit 15, a fragment nested 50 levels deep
parses (totally, by construction) to exactly one sentinel RichText node at
the truncation point. -/
theorem claim_C7_depth_guard :
    MAX_RECURSION_DEPTH = 15 ∧
    parse_fragment_nodes (mkElem ("html".toList) [] [nestedDivs 50]) =
      [depthSentinel] ∧
    (parse_fragment_nodes (mkElem ("html".toList) [] [nestedDivs 50])).count
      depthSentinel = 1 := by
  refine ⟨rfl, by decide, by decide⟩

/-- C5: for the sentinel string `$[{"ep_id":7,"amount":3}]$`, extraction
yields exactly one CustomEntry node with entry id 7 and amount 3
(name/desc/icon resolved against the store), and wrapping the string as
the single element of an outer JSON array yields the same result. -/
theorem claim_C5_sentinel (store : BulkStore) :
    parse_materials_value (Json.str c5str) store =
      parse_materials_value (Json.arr [Json.str c5str]) store ∧
    ∃ nm d ic, parse_materials_value (Json.str c5str) store =
      [HtmlNode.customEntry 7 nm d ic 3 linkStyle none] :=
  ⟨rfl, ⟨_, _, _, rfl⟩⟩

/-- C8: folding two decoded base-info components with the same key into the
component map in either arrival order yields the two concatenations, which
are equal as multisets; each single decode's items stay contiguous (one as
a prefix, the other as a suffix), preserving its insertion order. -/
theorem claim_C8_merge_commutative (k : List Char)
    (a b : List OutputBaseInfoItem) :
    (insertBaseInfo (insertBaseInfo emptyBaseInfoMap k a) k b) k =
      some (mergeBaseInfo a b) ∧
    (insertBaseInfo (insertBaseInfo emptyBaseInfoMap k b) k a) k =
      some (mergeBaseInfo b a) ∧
    (mergeBaseInfo a b).Perm (mergeBaseInfo b a) ∧
    (∃ t, mergeBaseInfo a b = a ++ t) ∧ (∃ s, mergeBaseInfo a b = s ++ b) := by
  refine ⟨?_, ?_, List.perm_append_comm, ⟨b, rfl⟩, ⟨a, rfl⟩⟩
  · simp [insertBaseInfo, emptyBaseInfoMap, mergeBaseInfo]
  · simp [insertBaseInfo, emptyBaseInfoMap, mergeBaseInfo]

/-- C10 counterexample: the input
`<span>a/<custom-ruby><rb>/x</rb><rt>y</rt></custom-ruby></span>` contains
no `//` (slash cleanup leaves it unchanged), yet the parsed RichText text
is `a//x(y)`: the inline custom-ruby rendering `rb(rt)` is appended to the
buffer without a separator, reintroducing `//`. -/
theorem claim_C10_counterexample :
    containsSub c10input slashSlash = false ∧
    clean_consecutive_slashes c10input = c10input ∧
    parse_fragment_nodes c10dom =
      [HtmlNode.richText ("a//x(y)".toList) none] ∧
    containsSub ("a//x(y)".toList) slashSlash = true := by
  refine ⟨by decide, by decide, by decide, by decide⟩

/-- C2 counterexample: for `<custom-entry epid="5" icon="ic">foo</custom-entry>`
resolved against an empty store, the emitted node's name and icon are empty
rather than falling back to the element text `foo` and the `icon`
attribute `ic` as the claim states. -/
theorem claim_C2_counterexample :
    post_process_html_nodes ((processCustomElement c2elem).toList)
      emptyStore =
      [HtmlNode.customEntry 5 [] (some []) [] 0 linkStyle none] ∧
    HtmlNode.customEntry 5 [] (some []) [] 0 linkStyle none ≠
      HtmlNode.customEntry 5 ("foo".toList) (some [])
        ("ic".toList) 0 linkStyle none := by
  refine ⟨by decide, by decide⟩

/-- C2 amended: for every CustomEntry node produced from an HTML
`<custom-entry>` tag, after resolution the name is the store name or empty,
the icon is the store icon or empty (inline element text and the `icon`
attribute are discarded), and only the description falls back to the tag's
`desc` attribute when the store has none. -/
theorem claim_C2_amended (attrs : List (List Char × List Char))
    (children : List DomNode) (store : BulkStore) (id : Int)
    (hid : parseStrI64 (attrOr attrs ("epid".toList)) = some id)
    (hpos : 0 < id) :
    post_process_html_nodes
      ((processCustomElement
        (mkElem ("custom-entry".toList) attrs children)).toList) store =
      [HtmlNode.customEntry id
        ((BulkStore.get_name store id).getD [])
        (optOr (BulkStore.get_desc store id)
          (some (trimWs (attrOr attrs ("desc".toList)))))
        ((BulkStore.get_icon store id).getD [])
        (((attrGet attrs ("amount".toList)).bind parseStrI64).getD 0)
        (trimWs ((attrGet attrs ("displaystyle".toList)).getD linkStyle))
        ((attrGet attrs ("menuid".toList)).bind parseStrI64)] := by
  have h1 : processCustomElement
      (mkElem ("custom-entry".toList) attrs children) =
      (parseStrI64 (attrOr attrs ("epid".toList))).bind
        (fun i =>
          if 0 < i then
            some (HtmlNode.customEntry i
              (extractPlainText (mkElem ("custom-entry".toList) attrs children))
              (some (trimWs (attrOr attrs ("desc".toList))))
              (trimWs (attrOr attrs ("icon".toList)))
              (((attrGet attrs ("amount".toList)).bind parseStrI64).getD 0)
              (trimWs ((attrGet attrs ("displaystyle".toList)).getD linkStyle))
              ((attrGet attrs ("menuid".toList)).bind parseStrI64))
          else none) := rfl
  rw [h1, hid]
  simp only [Option.bind, if_pos hpos, Option.toList,
    post_process_html_nodes, List.map, postNode]

/-- C2 witness: the amended resolution rule applied to the concrete element
`<custom-entry epid="5" icon="ic">foo</custom-entry>` and the empty store. -/
theorem claim_C2_witness :
    parseStrI64 (attrOr
      [("epid".toList, "5".toList), ("icon".toList, "ic".toList)]
      ("epid".toList)) = some 5 ∧
    post_process_html_nodes
      ((processCustomElement c2elem).toList) emptyStore =
      [HtmlNode.customEntry 5 [] (some []) [] 0 linkStyle none] :=
  ⟨by decide,
    (claim_C2_amended
      [("epid".toList, "5".toList), ("icon".toList, "ic".toList)]
      [DomNode.text ("foo".toList)] emptyStore 5 (by decide)
      (by decide)).trans (by decide)⟩

/-- C4: for every needed entry id, `get_icon` on the built store returns
the primary record's icon exactly when it is non-empty and free of the
invalid-file marker; otherwise it returns the first valid fallback icon in
fallback iteration order (or nothing when none passes). -/
theorem claim_C4_get_icon (primary : BulkMap) (fallbacks : List BulkMap)
    (ids : List EntryId) (id : EntryId) (hmem : ids.contains id = true) :
    BulkStore.get_icon (process_bulk_data primary fallbacks ids) id =
      (match primary id with
       | some page =>
         match page.icon_url with
         | some icon =>
           if iconValid icon then some icon else fallbackIconScan fallbacks id
         | none => fallbackIconScan fallbacks id
       | none => fallbackIconScan fallbacks id) := by
  unfold BulkStore.get_icon process_bulk_data buildBulkInfo
  rw [hmem]
  cases hp : primary id with
  | none =>
    cases hs : fallbackIconScan fallbacks id <;> simp [hs, Option.bind]
  | some page =>
    obtain ⟨nm, dsc, ic⟩ := page
    cases ic with
    | none =>
      cases hs : fallbackIconScan fallbacks id <;>
        cases nm <;> cases dsc <;> simp [hs, Option.bind]
    | some icon =>
      cases hv : iconValid icon with
      | true => simp [hv, Option.bind]
      | false =>
        cases hs : fallbackIconScan fallbacks id <;>
          cases nm <;> cases dsc <;> simp [hs, hv, Option.bind]

/-- C4 witness: a primary icon `invalid-file-x` with one valid fallback
resolves to the fallback icon `icon.png`; a primary icon `""` with no
fallback resolves to not-found. -/
theorem claim_C4_witness :
    BulkStore.get_icon
      (process_bulk_data c4primaryInvalid [c4fallbackValid] [7]) 7 =
      some ("icon.png".toList) ∧
    BulkStore.get_icon (process_bulk_data c4primaryEmptyIcon [] [7]) 7 =
      none :=
  ⟨(claim_C4_get_icon c4primaryInvalid [c4fallbackValid] [7] 7
      (by decide)).trans (by decide),
    (claim_C4_get_icon c4primaryEmptyIcon [] [7] 7 (by decide)).trans
      (by decide)⟩

/-- The cleanup loop never leaves two consecutive slashes: it only returns
a string on which the `contains("//")` test just failed. -/
theorem cleanF_no_slash : ∀ (f : Nat) (l : List Char),
    containsSub (cleanF f l) slashSlash = false := by
  intro f
  induction f with
  | zero => intro l; rfl
  | succ f ih =>
    intro l
    unfold cleanF
    cases h : containsSub l slashSlash with
    | true => simp only [if_pos rfl, h, if_true]; exact ih (replaceSlash l)
    | false => simp [h]

/-- C10 amended: before parsing, the whole input is slash-collapsed, so the
cleaned string never contains `//` (in particular `https://` becomes
`https:/`); extracted text can still contain `//` reassembled by the
parser (see the counterexample). -/
theorem claim_C10_amended :
    (∀ l, containsSub (clean_consecutive_slashes l) slashSlash = false) ∧
    clean_consecutive_slashes ("https://".toList) = "https:/".toList := by
  refine ⟨fun l => cleanF_no_slash _ l, by decide⟩
/-- Characters with equal code points are equal. -/
theorem charToNat_inj {a b : Char} (h : a.toNat = b.toNat) : a = b :=
  Char.ext (UInt32.ext h)

/-- `cmpStr` returns `eq` exactly on equal strings. -/
theorem cmpStr_eq_iff : ∀ {a b : List Char}, cmpStr a b = Ordering.eq ↔ a = b := by
  intro a
  induction a with
  | nil => intro b; cases b <;> simp [cmpStr]
  | cons x xs ih =>
    intro b
    cases b with
    | nil => simp [cmpStr]
    | cons y ys =>
      unfold cmpStr
      cases h : compare x.toNat y.toNat with
      | eq =>
        have hxy : x = y := charToNat_inj (Nat.compare_eq_eq.mp h)
        simp [hxy, ih]
      | lt =>
        have : x ≠ y := by
          intro he; rw [he] at h
          simp [Nat.compare_eq_eq.mpr rfl] at h
        simp [this]
      | gt =>
        have : x ≠ y := by
          intro he; rw [he] at h
          simp [Nat.compare_eq_eq.mpr rfl] at h
        simp [this]

/-- Swapping the arguments of `cmpStr` swaps `gt` and `lt`. -/
theorem cmpStr_gt_iff_lt : ∀ {a b : List Char},
    cmpStr a b = Ordering.gt ↔ cmpStr b a = Ordering.lt := by
  intro a
  induction a with
  | nil => intro b; cases b <;> simp [cmpStr]
  | cons x xs ih =>
    intro b
    cases b with
    | nil => simp [cmpStr]
    | cons y ys =>
      unfold cmpStr
      cases h : compare x.toNat y.toNat with
      | eq =>
        have h2 : compare y.toNat x.toNat = Ordering.eq :=
          Nat.compare_eq_eq.mpr (Nat.compare_eq_eq.mp h).symm
        rw [h2]
        exact ih
      | lt =>
        have h2 : compare y.toNat x.toNat = Ordering.gt :=
          Nat.compare_eq_gt.mpr (Nat.compare_eq_lt.mp h)
        rw [h2]
        simp
      | gt =>
        have h2 : compare y.toNat x.toNat = Ordering.lt :=
          Nat.compare_eq_lt.mpr (Nat.compare_eq_gt.mp h)
        rw [h2]
        simp

/-- The non-`gt` relation of `cmpStr` is transitive. -/
theorem cmpStr_le_trans : ∀ {a b c : List Char},
    cmpStr a b ≠ Ordering.gt → cmpStr b c ≠ Ordering.gt →
    cmpStr a c ≠ Ordering.gt := by
  intro a
  induction a with
  | nil =>
    intro b c _ _
    cases c <;> simp [cmpStr]
  | cons x xs ih =>
    intro b c hab hbc
    cases b with
    | nil => simp [cmpStr] at hab
    | cons y ys =>
      cases c with
      | nil => simp [cmpStr] at hbc
      | cons z zs =>
        unfold cmpStr at hab hbc ⊢
        cases hxy : compare x.toNat y.toNat with
        | gt => rw [hxy] at hab; simp at hab
        | lt =>
          rw [hxy] at hab
          cases hyz : compare y.toNat z.toNat with
          | gt => rw [hyz] at hbc; simp at hbc
          | lt =>
            have : compare x.toNat z.toNat = Ordering.lt :=
              Nat.compare_eq_lt.mpr
                (Nat.lt_trans (Nat.compare_eq_lt.mp hxy) (Nat.compare_eq_lt.mp hyz))
            rw [this]; simp
          | eq =>
            have hyzn := Nat.compare_eq_eq.mp hyz
            have : compare x.toNat z.toNat = Ordering.lt :=
              Nat.compare_eq_lt.mpr (hyzn ▸ Nat.compare_eq_lt.mp hxy)
            rw [this]; simp
        | eq =>
          rw [hxy] at hab
          have hxyn := Nat.compare_eq_eq.mp hxy
          cases hyz : compare y.toNat z.toNat with
          | gt => rw [hyz] at hbc; simp at hbc
          | lt =>
            have : compare x.toNat z.toNat = Ordering.lt :=
              Nat.compare_eq_lt.mpr (hxyn ▸ Nat.compare_eq_lt.mp hyz)
            rw [this]; simp
          | eq =>
            have hyzn := Nat.compare_eq_eq.mp hyz
            have : compare x.toNat z.toNat = Ordering.eq :=
              Nat.compare_eq_eq.mpr (hxyn.trans hyzn)
            rw [hyz] at hbc
            rw [this]
            exact ih hab hbc

/-- Insertion produces a permutation of the cons. -/
theorem insBy_perm {α : Type} (cmp : α → α → Ordering) (x : α) :
    ∀ l : List α, (insBy cmp x l).Perm (x :: l) := by
  intro l
  induction l with
  | nil => simp [insBy]
  | cons y ys ih =>
    unfold insBy
    cases cmp x y with
    | gt => exact ((ih.cons y).trans (List.Perm.swap x y ys))
    | lt => exact List.Perm.refl _
    | eq => exact List.Perm.refl _

/-- The insertion sort permutes its input. -/
theorem sortByCmp_perm {α : Type} (cmp : α → α → Ordering) :
    ∀ l : List α, (sortByCmp cmp l).Perm l := by
  intro l
  induction l with
  | nil => exact List.Perm.refl _
  | cons x xs ih =>
    have : sortByCmp cmp (x :: xs) = insBy cmp x (sortByCmp cmp xs) := rfl
    rw [this]
    exact (insBy_perm cmp x _).trans (ih.cons x)

/-- Insertion preserves sortedness for `cmpStr`. -/
theorem insBy_sorted (x : List Char) :
    ∀ l : List (List Char),
    List.Sorted (fun a b => cmpStr a b ≠ Ordering.gt) l →
    List.Sorted (fun a b => cmpStr a b ≠ Ordering.gt) (insBy cmpStr x l) := by
  intro l
  induction l with
  | nil => intro _; simp [insBy]
  | cons y ys ih =>
    intro hs
    rw [List.sorted_cons] at hs
    obtain ⟨hy, hys⟩ := hs
    unfold insBy
    cases h : cmpStr x y with
    | gt =>
      rw [List.sorted_cons]
      refine ⟨?_, ih hys⟩
      intro b hb
      have hmem := (insBy_perm cmpStr x ys).mem_iff.mp hb
      rcases List.mem_cons.mp hmem with hbx | hbys
      · subst hbx
        rw [cmpStr_gt_iff_lt] at h
        simp [h]
      · exact hy b hbys
    | lt =>
      rw [List.sorted_cons]
      refine ⟨?_, by rw [List.sorted_cons]; exact ⟨hy, hys⟩⟩
      intro b hb
      rcases List.mem_cons.mp hb with hby | hbys
      · subst hby; simp [h]
      · exact cmpStr_le_trans (by simp [h]) (hy b hbys)
    | eq =>
      rw [List.sorted_cons]
      refine ⟨?_, by rw [List.sorted_cons]; exact ⟨hy, hys⟩⟩
      intro b hb
      rcases List.mem_cons.mp hb with hby | hbys
      · subst hby; simp [h]
      · exact cmpStr_le_trans (by simp [h]) (hy b hbys)

/-- The insertion sort output is sorted for `cmpStr`. -/
theorem sortByCmp_sorted :
    ∀ l : List (List Char),
    List.Sorted (fun a b => cmpStr a b ≠ Ordering.gt) (sortByCmp cmpStr l) := by
  intro l
  induction l with
  | nil => simp [sortByCmp]
  | cons x xs ih => exact insBy_sorted x _ ih

/-- Sorting two permuted string lists gives the same list. -/
theorem sortByCmp_eq_of_perm {A B : List (List Char)} (h : A.Perm B) :
    sortByCmp cmpStr A = sortByCmp cmpStr B := by
  haveI : IsAntisymm (List Char) (fun a b => cmpStr a b ≠ Ordering.gt) := by
    constructor
    intro a b hab hba
    cases hc : cmpStr a b with
    | eq => exact cmpStr_eq_iff.mp hc
    | gt => exact absurd hc hab
    | lt =>
      rw [← cmpStr_gt_iff_lt] at hc
      exact absurd hc hba
  exact List.eq_of_perm_of_sorted
    ((sortByCmp_perm cmpStr A).trans (h.trans (sortByCmp_perm cmpStr B).symm))
    (sortByCmp_sorted A) (sortByCmp_sorted B)

/-- Insertion commutes with mapping when the comparator factors through
the map. -/
theorem map_insBy_gen {A B : Type} (f : A → B) (cmp : A → A → Ordering)
    (cmp2 : B → B → Ordering) (hc : ∀ a b, cmp a b = cmp2 (f a) (f b))
    (x : A) : ∀ l : List A,
    (insBy cmp x l).map f = insBy cmp2 (f x) (l.map f) := by
  intro l
  induction l with
  | nil => rfl
  | cons y ys ih =>
    unfold insBy
    rw [hc x y]
    cases h : cmp2 (f x) (f y) <;> simp [h, ih]

/-- Taking video ids commutes with the sort of the merge arm. -/
theorem map_vid_sort :
    ∀ l : List OutputVideoCollectionItem,
    idsOfVideos (sortByCmp vidCmp l) = sortByCmp cmpStr (idsOfVideos l) := by
  intro l
  induction l with
  | nil => rfl
  | cons x xs ih =>
    show (insBy vidCmp x (sortByCmp vidCmp xs)).map (·.video_id) = _
    rw [map_insBy_gen (fun v : OutputVideoCollectionItem => v.video_id) vidCmp cmpStr (fun _ _ => rfl) x]
    unfold idsOfVideos at ih
    rw [ih]
    rfl

/-- Taking video ids commutes with the dedup tail. -/
theorem map_vid_dedupTail :
    ∀ (l : List OutputVideoCollectionItem) (prev : OutputVideoCollectionItem),
    (dedupTail (fun a b => a.video_id == b.video_id) prev l).map (·.video_id) =
      dedupTail (fun a b => a == b) prev.video_id (l.map (·.video_id)) := by
  intro l
  induction l with
  | nil => intro prev; rfl
  | cons y ys ih =>
    intro prev
    simp only [List.map]
    unfold dedupTail
    cases h : (y.video_id == prev.video_id) with
    | true => simp only [h, if_true]; exact ih prev
    | false =>
      simp only [h, Bool.false_eq_true, if_false, List.map]
      rw [ih y]

/-- Taking video ids commutes with the dedup of the merge arm. -/
theorem map_vid_dedup :
    ∀ l : List OutputVideoCollectionItem,
    idsOfVideos (dedupByKeep (fun a b => a.video_id == b.video_id) l) =
      dedupByKeep (fun a b => a == b) (idsOfVideos l) := by
  intro l
  cases l with
  | nil => rfl
  | cons x xs =>
    show (x :: dedupTail _ x xs).map (·.video_id) = _
    simp only [List.map]
    rw [map_vid_dedupTail xs x]
    rfl

/-- Over a sorted list, the dedup tail yields a strictly increasing
chain. -/
theorem dedupTail_chain :
    ∀ (l : List (List Char)) (prev : List Char),
    List.Sorted (fun a b => cmpStr a b ≠ Ordering.gt) (prev :: l) →
    List.Chain' (fun a b => cmpStr a b = Ordering.lt)
      (prev :: dedupTail (fun a b => a == b) prev l) := by
  intro l
  induction l with
  | nil => intro prev _; simp [dedupTail]
  | cons y ys ih =>
    intro prev hs
    rw [List.sorted_cons] at hs
    obtain ⟨hprev, hys⟩ := hs
    rw [List.sorted_cons] at hys
    obtain ⟨hy, hys2⟩ := hys
    unfold dedupTail
    cases h : (y == prev) with
    | true =>
      simp only [if_true]
      apply ih prev
      rw [List.sorted_cons]
      exact ⟨fun b hb => hprev b (List.mem_cons_of_mem y hb), hys2⟩
    | false =>
      simp only [Bool.false_eq_true, if_false]
      rw [List.chain'_cons]
      constructor
      · have hne : y ≠ prev := by
          intro he; rw [he] at h; simp at h
        have hle : cmpStr prev y ≠ Ordering.gt :=
          hprev y (List.mem_cons_self y ys)
        cases hc : cmpStr prev y with
        | lt => rfl
        | eq => exact absurd (cmpStr_eq_iff.mp hc).symm hne
        | gt => exact absurd hc hle
      · apply ih y
        rw [List.sorted_cons]
        exact ⟨hy, hys2⟩

/-- Dedup of a sorted string list is strictly increasing. -/
theorem dedup_chain :
    ∀ l : List (List Char),
    List.Sorted (fun a b => cmpStr a b ≠ Ordering.gt) l →
    List.Chain' (fun a b => cmpStr a b = Ordering.lt)
      (dedupByKeep (fun a b => a == b) l) := by
  intro l hs
  cases l with
  | nil => simp [dedupByKeep]
  | cons x xs => exact dedupTail_chain xs x hs

/-- Dedup keeps exactly the members. -/
theorem mem_dedupTail :
    ∀ (l : List (List Char)) (prev x : List Char),
    (x ∈ prev :: dedupTail (fun a b => a == b) prev l) ↔ x ∈ prev :: l := by
  intro l
  induction l with
  | nil => intro prev x; rfl
  | cons y ys ih =>
    intro prev x
    unfold dedupTail
    cases h : (y == prev) with
    | true =>
      have hyp : y = prev := by simpa using h
      simp only [if_true]
      rw [ih prev x]
      subst hyp
      simp only [List.mem_cons]
      tauto
    | false =>
      simp only [Bool.false_eq_true, if_false]
      have h2 := ih y x
      simp only [List.mem_cons] at h2 ⊢
      tauto

/-- Membership is unchanged by dedup. -/
theorem mem_dedup (x : List Char) :
    ∀ l : List (List Char),
    (x ∈ dedupByKeep (fun a b => a == b) l) ↔ x ∈ l := by
  intro l
  cases l with
  | nil => simp [dedupByKeep]
  | cons y ys =>
    show (x ∈ y :: dedupTail _ y ys) ↔ _
    exact mem_dedupTail ys y x

/-- The video_id sequence of the merge: sort the concatenated id lists and
drop consecutive duplicates. -/
theorem idsOf_mergeVideo (a b : List OutputVideoCollectionItem) :
    idsOfVideos (mergeVideoCollection a b) =
      dedupByKeep (fun x y => x == y)
        (sortByCmp cmpStr (idsOfVideos a ++ idsOfVideos b)) := by
  unfold mergeVideoCollection
  rw [map_vid_dedup, map_vid_sort]
  unfold idsOfVideos
  rw [List.map_append]

/-- C3 amended: when two decoded VideoCollection components share a key,
the merge concatenates the lists, sorts by `video_id` and de-duplicates
consecutive equal `video_id`s, so the merged `video_id` sequence is
strictly increasing, covers exactly the ids of both inputs, and is the
same whichever component arrived first. -/
theorem claim_C3_amended (ex nw : List OutputVideoCollectionItem) :
    idsOfVideos (mergeVideoCollection ex nw) =
      idsOfVideos (mergeVideoCollection nw ex) ∧
    List.Chain' (fun a b => cmpStr a b = Ordering.lt)
      (idsOfVideos (mergeVideoCollection ex nw)) ∧
    (∀ v, v ∈ idsOfVideos (mergeVideoCollection ex nw) ↔
      v ∈ idsOfVideos ex ∨ v ∈ idsOfVideos nw) := by
  refine ⟨?_, ?_, ?_⟩
  · rw [idsOf_mergeVideo, idsOf_mergeVideo]
    congr 1
    exact sortByCmp_eq_of_perm List.perm_append_comm
  · rw [idsOf_mergeVideo]
    exact dedup_chain _ (sortByCmp_sorted _)
  · intro v
    rw [idsOf_mergeVideo, mem_dedup]
    rw [(sortByCmp_perm cmpStr _).mem_iff]
    simp [List.mem_append]

/-- C3 counterexample: merging the singleton lists with items
(video_id 2, title a, url u2) and (video_id 1, title b, url u1) sorts by
`video_id`, not by title, so the result differs from the claimed
sort-by-title/dedup-by-url merge. -/
theorem claim_C3_counterexample :
    mergeVideoCollection
      [⟨"2".toList, "a".toList, "u2".toList, [], 0⟩]
      [⟨"1".toList, "b".toList, "u1".toList, [], 0⟩] ≠
    mergeVideoCollectionClaim
      [⟨"2".toList, "a".toList, "u2".toList, [], 0⟩]
      [⟨"1".toList, "b".toList, "u1".toList, [], 0⟩] := by decide


/-- Dropping a prefix by a predicate is idempotent. -/
theorem dw_dw (p : Char → Bool) :
    ∀ l : List Char, List.dropWhile p (List.dropWhile p l) = List.dropWhile p l := by
  intro l
  induction l with
  | nil => rfl
  | cons c t ih =>
    rw [List.dropWhile_cons]
    cases h : p c with
    | true => simp [h, ih]
    | false => simp [List.dropWhile_cons, h]

/-- After `dropWhile`, the head no longer satisfies the predicate. -/
theorem dw_head (p : Char → Bool) :
    ∀ (l : List Char) (c : Char) (t : List Char),
    List.dropWhile p l = c :: t → p c = false := by
  intro l
  induction l with
  | nil => intro c t h; simp at h
  | cons x xs ih =>
    intro c t h
    rw [List.dropWhile_cons] at h
    cases hx : p x with
    | true => rw [hx] at h; simp at h; exact ih c t h
    | false =>
      rw [hx] at h
      simp at h
      rw [← h.1]
      exact hx

/-- A list is its trailing-drop followed by the dropped whitespace. -/
theorem rdrop_decomp (m : List Char) : ∃ j, m = rdropWs m ++ j := by
  refine ⟨(List.takeWhile isWsC m.reverse).reverse, ?_⟩
  unfold rdropWs
  have h := List.takeWhile_append_dropWhile isWsC m.reverse
  calc m = m.reverse.reverse := (List.reverse_reverse m).symm
    _ = (List.takeWhile isWsC m.reverse ++ List.dropWhile isWsC m.reverse).reverse := by
        rw [h]
    _ = (List.dropWhile isWsC m.reverse).reverse ++
        (List.takeWhile isWsC m.reverse).reverse := by
        rw [List.reverse_append]

/-- Trailing-dropping preserves a non-whitespace head. -/
theorem dw_rdrop (m : List Char)
    (hm : ∀ c t, m = c :: t → isWsC c = false) :
    List.dropWhile isWsC (rdropWs m) = rdropWs m := by
  obtain ⟨j, hj⟩ := rdrop_decomp m
  cases hr : rdropWs m with
  | nil => rfl
  | cons c t =>
    rw [hr] at hj
    have := hm c (t ++ j) (by simpa using hj)
    rw [List.dropWhile_cons]
    simp [this]

/-- Trailing whitespace removal is idempotent. -/
theorem rdrop_rdrop (m : List Char) : rdropWs (rdropWs m) = rdropWs m := by
  unfold rdropWs
  rw [List.reverse_reverse, dw_dw]

/-- Trimming is idempotent. -/
theorem trim_trim (l : List Char) : trimWs (trimWs l) = trimWs l := by
  unfold trimWs
  rw [dw_rdrop (List.dropWhile isWsC l) (fun c t h => dw_head isWsC l c t h)]
  exact rdrop_rdrop _

/-- Every word produced by the splitter is non-empty and free of
whitespace. -/
theorem wordsAux_ok :
    ∀ (l cur : List Char), (∀ c, c ∈ cur → isWsC c = false) →
    ∀ w, w ∈ wordsAux l cur → w ≠ [] ∧ ∀ c, c ∈ w → isWsC c = false := by
  intro l
  induction l with
  | nil =>
    intro cur hcur w hw
    unfold wordsAux at hw
    cases hc : cur.isEmpty with
    | true => rw [hc] at hw; simp at hw
    | false =>
      rw [hc] at hw
      simp at hw
      subst hw
      constructor
      · simp [List.isEmpty_iff] at hc
        simpa using hc
      · intro c hcmem
        exact hcur c (by simpa using hcmem)
  | cons x xs ih =>
    intro cur hcur w hw
    unfold wordsAux at hw
    cases hx : isWsC x with
    | true =>
      rw [hx] at hw
      simp only [if_true] at hw
      cases hc : cur.isEmpty with
      | true =>
        rw [hc] at hw; simp only [if_true] at hw
        exact ih [] (by simp) w hw
      | false =>
        rw [hc] at hw
        simp only [Bool.false_eq_true, if_false, List.mem_cons] at hw
        rcases hw with hw | hw
        · subst hw
          constructor
          · simp [List.isEmpty_iff] at hc
            simpa using hc
          · intro c hcmem
            exact hcur c (by simpa using hcmem)
        · exact ih [] (by simp) w hw
    | false =>
      rw [hx] at hw
      simp only [Bool.false_eq_true, if_false] at hw
      refine ih (x :: cur) ?_ w hw
      intro c hcmem
      rcases List.mem_cons.mp hcmem with hcx | hcc
      · subst hcx; exact hx
      · exact hcur c hcc

/-- Joining at least one non-empty word is non-empty. -/
theorem joinWords_ne_nil :
    ∀ ws : List (List Char), ws ≠ [] → (∀ w, w ∈ ws → w ≠ []) →
    joinWords ws ≠ [] := by
  intro ws
  cases ws with
  | nil => intro h; exact absurd rfl h
  | cons w rest =>
    intro _ hok
    cases rest with
    | nil =>
      show joinWords [w] ≠ []
      unfold joinWords
      exact hok w (by simp)
    | cons w2 rest2 =>
      show w ++ ' ' :: joinWords (w2 :: rest2) ≠ []
      simp

/-- The first character of a join of good words is not whitespace. -/
theorem joinWords_head :
    ∀ (ws : List (List Char)), (∀ w, w ∈ ws → w ≠ [] ∧ ∀ c, c ∈ w → isWsC c = false) →
    ∀ c t, joinWords ws = c :: t → isWsC c = false := by
  intro ws
  cases ws with
  | nil => intro _ c t h; simp [joinWords] at h
  | cons w rest =>
    intro hok c t h
    have hw := hok w (by simp)
    cases rest with
    | nil =>
      have : joinWords [w] = w := rfl
      rw [this] at h
      exact hw.2 c (by rw [h]; simp)
    | cons w2 rest2 =>
      have : joinWords (w :: w2 :: rest2) = w ++ ' ' :: joinWords (w2 :: rest2) := rfl
      rw [this] at h
      cases hwl : w with
      | nil => exact absurd hwl hw.1
      | cons wc wt =>
        rw [hwl] at h
        simp at h
        exact hw.2 c (by rw [hwl, ← h.1]; simp)

/-- The last character of a join of good words is not whitespace. -/
theorem joinWords_last :
    ∀ (ws : List (List Char)), (∀ w, w ∈ ws → w ≠ [] ∧ ∀ c, c ∈ w → isWsC c = false) →
    ∀ c, (joinWords ws).getLast? = some c → isWsC c = false := by
  intro ws
  induction ws with
  | nil => intro _ c h; simp [joinWords] at h
  | cons w rest ih =>
    intro hok c h
    have hw := hok w (by simp)
    cases rest with
    | nil =>
      have he : joinWords [w] = w := rfl
      rw [he] at h
      exact hw.2 c (List.mem_of_mem_getLast? (Option.mem_def.mpr h))
    | cons w2 rest2 =>
      have he : joinWords (w :: w2 :: rest2) = w ++ ' ' :: joinWords (w2 :: rest2) := rfl
      rw [he] at h
      rw [List.getLast?_append] at h
      have hjn : joinWords (w2 :: rest2) ≠ [] :=
        joinWords_ne_nil _ (by simp) (fun v hv => (hok v (List.mem_cons_of_mem w hv)).1)
      cases hj : joinWords (w2 :: rest2) with
      | nil => exact absurd hj hjn
      | cons j jt =>
        rw [hj, List.getLast?_cons_cons] at h
        cases hg : (j :: jt).getLast? with
        | none =>
          rw [List.getLast?_eq_none_iff] at hg
          simp at hg
        | some x =>
          rw [hg] at h
          simp [Option.or] at h
          refine ih (fun v hv => hok v (List.mem_cons_of_mem w hv)) c ?_
          rw [hj, hg, h]

/-- Whitespace-normalized text is already trimmed. -/
theorem trim_normalize (l : List Char) :
    trimWs (normalizeWhitespace l) = normalizeWhitespace l := by
  have hok := wordsAux_ok l [] (by simp)
  have hhead : ∀ c t, normalizeWhitespace l = c :: t → isWsC c = false := by
    intro c t h
    exact joinWords_head (wordsAux l []) hok c t h
  have hlast : ∀ c, (normalizeWhitespace l).getLast? = some c → isWsC c = false := by
    intro c h
    exact joinWords_last (wordsAux l []) hok c h
  unfold trimWs
  have h1 : List.dropWhile isWsC (normalizeWhitespace l) = normalizeWhitespace l := by
    cases hn : normalizeWhitespace l with
    | nil => rfl
    | cons c t =>
      rw [List.dropWhile_cons]
      simp [hhead c t hn]
  rw [h1]
  unfold rdropWs
  have h2 : List.dropWhile isWsC (normalizeWhitespace l).reverse =
      (normalizeWhitespace l).reverse := by
    cases hr : (normalizeWhitespace l).reverse with
    | nil => rfl
    | cons c t =>
      have : (normalizeWhitespace l).reverse.head? = some c := by rw [hr]; rfl
      rw [List.head?_reverse] at this
      rw [List.dropWhile_cons]
      simp [hlast c this]
  rw [h2, List.reverse_reverse]

/-- A node emitted by `flush` has non-blank text. -/
theorem flush_good (b : RichTextBuilder) (align : Option (List Char))
    (n : HtmlNode) (h : RichTextBuilder.flush b align = some n) :
    goodNodeB n = true := by
  simp only [RichTextBuilder.flush] at h
  split at h
  · cases h
    show (!(trimWs (flushedText b.buffer)).isEmpty) = true
    have ht : trimWs (flushedText b.buffer) = flushedText b.buffer := by
      unfold flushedText
      exact trim_trim _
    rw [ht]
    assumption
  · simp at h

/-- Custom-element processing never emits a RichText or Heading node, so
its results trivially satisfy the non-blank invariant. -/
theorem custom_good (el : DomNode) (n : HtmlNode)
    (h : processCustomElement el = some n) : goodNodeB n = true := by
  cases el with
  | text s => simp [processCustomElement] at h
  | elem tag attrs cs =>
    simp only [processCustomElement] at h
    split at h
    · rcases Option.bind_eq_some.mp h with ⟨i, _, h2⟩
      split at h2
      · cases h2; rfl
      · simp at h2
    · split at h
      · rcases Option.bind_eq_some.mp h with ⟨url, _, h2⟩
        split at h2
        · cases h2; rfl
        · simp at h2
      · split at h
        · split at h
          · cases h; rfl
          · simp at h
        · split at h
          · rcases Option.bind_eq_some.mp h with ⟨i, _, h2⟩
            split at h2
            · cases h2; rfl
            · simp at h2
          · split at h
            · rcases Option.bind_eq_some.mp h with ⟨url, _, h2⟩
              split at h2
              · cases h2; rfl
              · simp at h2
            · split at h
              · rcases Option.bind_eq_some.mp h with ⟨url, _, h2⟩
                split at h2
                · cases h2; rfl
                · simp at h2
              · simp at h

/-- A run emitted by the merge pass is guarded by a non-blank check. -/
theorem emitRT_good (t : List Char) (a : Option (List Char)) :
    ∀ n, n ∈ emitRT t a → goodNodeB n = true := by
  intro n hn
  unfold emitRT at hn
  split at hn
  · simp at hn
  · simp at hn
    subst hn
    show (!(trimWs t).isEmpty) = true
    simp_all

/-- The merge pass preserves the non-blank invariant: emitted RichText
runs are guarded, other nodes come from the input. -/
theorem mergeRunF_good :
    ∀ (f : Nat) (st : Option (List Char × Option (List Char)))
      (l : List HtmlNode),
    (∀ n, n ∈ l → goodNodeB n = true) →
    ∀ n, n ∈ mergeRunF f st l → goodNodeB n = true := by
  intro f
  induction f with
  | zero => intro st l _ n hn; simp [mergeRunF] at hn
  | succ f ih =>
    intro st l hl n hn
    cases st with
    | none =>
      cases l with
      | nil => simp [mergeRunF] at hn
      | cons m rest =>
        cases m with
        | richText t a =>
          replace hn : n ∈ mergeRunF f (some (t, a)) rest := hn
          exact ih (some (t, a)) rest (fun x hx => hl x (List.mem_cons_of_mem _ hx)) n hn
        | heading lv t a =>
          replace hn : n ∈ HtmlNode.heading lv t a :: mergeRunF f none rest := hn
          rcases List.mem_cons.mp hn with h | h
          · subst h; exact hl _ (List.mem_cons_self _ _)
          · exact ih none rest (fun x hx => hl x (List.mem_cons_of_mem _ hx)) n h
        | customEntry i nm d ic am ds mid =>
          replace hn : n ∈ HtmlNode.customEntry i nm d ic am ds mid :: mergeRunF f none rest := hn
          rcases List.mem_cons.mp hn with h | h
          · subst h; rfl
          · exact ih none rest (fun x hx => hl x (List.mem_cons_of_mem _ hx)) n h
        | customImage u a =>
          replace hn : n ∈ HtmlNode.customImage u a :: mergeRunF f none rest := hn
          rcases List.mem_cons.mp hn with h | h
          · subst h; rfl
          · exact ih none rest (fun x hx => hl x (List.mem_cons_of_mem _ hx)) n h
        | customRuby rb rt =>
          replace hn : n ∈ HtmlNode.customRuby rb rt :: mergeRunF f none rest := hn
          rcases List.mem_cons.mp hn with h | h
          · subst h; rfl
          · exact ih none rest (fun x hx => hl x (List.mem_cons_of_mem _ hx)) n h
        | customPost i nm ic =>
          replace hn : n ∈ HtmlNode.customPost i nm ic :: mergeRunF f none rest := hn
          rcases List.mem_cons.mp hn with h | h
          · subst h; rfl
          · exact ih none rest (fun x hx => hl x (List.mem_cons_of_mem _ hx)) n h
        | customVideo u =>
          replace hn : n ∈ HtmlNode.customVideo u :: mergeRunF f none rest := hn
          rcases List.mem_cons.mp hn with h | h
          · subst h; rfl
          · exact ih none rest (fun x hx => hl x (List.mem_cons_of_mem _ hx)) n h
        | customMap u =>
          replace hn : n ∈ HtmlNode.customMap u :: mergeRunF f none rest := hn
          rcases List.mem_cons.mp hn with h | h
          · subst h; rfl
          · exact ih none rest (fun x hx => hl x (List.mem_cons_of_mem _ hx)) n h
    | some pair =>
      obtain ⟨t, a⟩ := pair
      cases l with
      | nil =>
        replace hn : n ∈ emitRT t a := hn
        exact emitRT_good t a n hn
      | cons m rest =>
        cases m with
        | richText nt na =>
          replace hn : n ∈ (if (a == na && !(trimWs nt).isEmpty) = true
              then mergeRunF f (some (runAppend t nt, a)) rest
              else emitRT t a ++ mergeRunF f (some (nt, na)) rest) := hn
          by_cases hcond : (a == na && !(trimWs nt).isEmpty) = true
          · rw [if_pos hcond] at hn
            exact ih (some (runAppend t nt, a)) rest
              (fun x hx => hl x (List.mem_cons_of_mem _ hx)) n hn
          · rw [if_neg hcond] at hn
            rcases List.mem_append.mp hn with h | h
            · exact emitRT_good t a n h
            · exact ih (some (nt, na)) rest
                (fun x hx => hl x (List.mem_cons_of_mem _ hx)) n h
        | heading lv nt na =>
          replace hn : n ∈ emitRT t a ++ (HtmlNode.heading lv nt na :: mergeRunF f none rest) := hn
          rcases List.mem_append.mp hn with h | h
          · exact emitRT_good t a n h
          · rcases List.mem_cons.mp h with h2 | h2
            · subst h2; exact hl _ (List.mem_cons_self _ _)
            · exact ih none rest (fun x hx => hl x (List.mem_cons_of_mem _ hx)) n h2
        | customEntry i nm d ic am ds mid =>
          replace hn : n ∈ emitRT t a ++ (HtmlNode.customEntry i nm d ic am ds mid :: mergeRunF f none rest) := hn
          rcases List.mem_append.mp hn with h | h
          · exact emitRT_good t a n h
          · rcases List.mem_cons.mp h with h2 | h2
            · subst h2; rfl
            · exact ih none rest (fun x hx => hl x (List.mem_cons_of_mem _ hx)) n h2
        | customImage u al =>
          replace hn : n ∈ emitRT t a ++ (HtmlNode.customImage u al :: mergeRunF f none rest) := hn
          rcases List.mem_append.mp hn with h | h
          · exact emitRT_good t a n h
          · rcases List.mem_cons.mp h with h2 | h2
            · subst h2; rfl
            · exact ih none rest (fun x hx => hl x (List.mem_cons_of_mem _ hx)) n h2
        | customRuby rb rt =>
          replace hn : n ∈ emitRT t a ++ (HtmlNode.customRuby rb rt :: mergeRunF f none rest) := hn
          rcases List.mem_append.mp hn with h | h
          · exact emitRT_good t a n h
          · rcases List.mem_cons.mp h with h2 | h2
            · subst h2; rfl
            · exact ih none rest (fun x hx => hl x (List.mem_cons_of_mem _ hx)) n h2
        | customPost i nm ic =>
          replace hn : n ∈ emitRT t a ++ (HtmlNode.customPost i nm ic :: mergeRunF f none rest) := hn
          rcases List.mem_append.mp hn with h | h
          · exact emitRT_good t a n h
          · rcases List.mem_cons.mp h with h2 | h2
            · subst h2; rfl
            · exact ih none rest (fun x hx => hl x (List.mem_cons_of_mem _ hx)) n h2
        | customVideo u =>
          replace hn : n ∈ emitRT t a ++ (HtmlNode.customVideo u :: mergeRunF f none rest) := hn
          rcases List.mem_append.mp hn with h | h
          · exact emitRT_good t a n h
          · rcases List.mem_cons.mp h with h2 | h2
            · subst h2; rfl
            · exact ih none rest (fun x hx => hl x (List.mem_cons_of_mem _ hx)) n h2
        | customMap u =>
          replace hn : n ∈ emitRT t a ++ (HtmlNode.customMap u :: mergeRunF f none rest) := hn
          rcases List.mem_append.mp hn with h | h
          · exact emitRT_good t a n h
          · rcases List.mem_cons.mp h with h2 | h2
            · subst h2; rfl
            · exact ih none rest (fun x hx => hl x (List.mem_cons_of_mem _ hx)) n h2

/-- Flushed node lists satisfy the non-blank invariant. -/
theorem flushNodes_good (b : RichTextBuilder) (align : Option (List Char))
    (n : HtmlNode) (hn : n ∈ flushNodes b align) : goodNodeB n = true := by
  unfold flushNodes at hn
  cases hf : RichTextBuilder.flush b align with
  | none => rw [hf] at hn; simp at hn
  | some m =>
    rw [hf] at hn
    simp at hn
    subst hn
    exact flush_good b align _ hf

/-- The image alignment adjustment preserves the invariant. -/
theorem imageAlignFix_good (a : Option (List Char)) (n : HtmlNode)
    (h : goodNodeB n = true) : goodNodeB (imageAlignFix a n) = true := by
  cases n <;> first
    | exact h
    | (rename_i url al; cases al <;> rfl)

/-- One block-child step preserves the non-blank invariant, given that
the recursive block parse does. -/
theorem blockStep_good (recE : DomNode → Nat → List HtmlNode)
    (recI : DomNode → RichTextBuilder → Nat → RichTextBuilder)
    (depth : Nat) (alignment : Option (List Char))
    (hrec : ∀ c d m, m ∈ recE c d → goodNodeB m = true)
    (acc : List HtmlNode × RichTextBuilder) (child : DomNode)
    (hacc : ∀ m, m ∈ acc.1 → goodNodeB m = true) :
    ∀ m, m ∈ (blockStep recE recI depth alignment acc child).1 →
      goodNodeB m = true := by
  intro m hm
  cases child with
  | text s =>
    replace hm : m ∈ acc.1 := hm
    exact hacc m hm
  | elem ctag cattrs cchildren =>
    simp only [blockStep] at hm
    split at hm
    · exact hacc m hm
    · split at hm
      · -- heading branch
        split at hm
        · -- parseStrU8 = some level
          split at hm
          · -- text nonempty
            simp only [List.mem_append] at hm
            rcases hm with (hm | hm) | hm
            · exact hacc m hm
            · exact flushNodes_good _ _ m hm
            · simp at hm
              subst hm
              show (!(trimWs (extractPlainText
                (DomNode.elem ctag cattrs cchildren))).isEmpty) = true
              unfold extractPlainText
              rw [trim_normalize]
              rename_i htext
              simpa using htext
          · simp only [List.mem_append] at hm
            rcases hm with hm | hm
            · exact hacc m hm
            · exact flushNodes_good _ _ m hm
        · simp only [List.mem_append] at hm
          rcases hm with hm | hm
          · exact hacc m hm
          · exact flushNodes_good _ _ m hm
      · split at hm
        · -- custom tag branch
          split at hm
          · -- processCustomElement = some node
            simp only [List.mem_append] at hm
            rcases hm with (hm | hm) | hm
            · exact hacc m hm
            · exact flushNodes_good _ _ m hm
            · simp at hm
              subst hm
              rename_i node hnode
              exact imageAlignFix_good alignment node
                (custom_good _ node hnode)
          · simp only [List.mem_append] at hm
            rcases hm with hm | hm
            · exact hacc m hm
            · exact flushNodes_good _ _ m hm
        · split at hm
          · -- block / li branch
            simp only [List.mem_append] at hm
            rcases hm with (hm | hm) | hm
            · exact hacc m hm
            · exact flushNodes_good _ _ m hm
            · exact hrec _ _ m hm
          · split at hm
            · -- br/hr
              exact hacc m hm
            · split at hm
              · -- inline
                exact hacc m hm
              · -- default: recurse as block
                simp only [List.mem_append] at hm
                rcases hm with (hm | hm) | hm
                · exact hacc m hm
                · exact flushNodes_good _ _ m hm
                · exact hrec _ _ m hm

/-- The block-child fold preserves the non-blank invariant. -/
theorem foldl_blockStep_good (recE : DomNode → Nat → List HtmlNode)
    (recI : DomNode → RichTextBuilder → Nat → RichTextBuilder)
    (depth : Nat) (alignment : Option (List Char))
    (hrec : ∀ c d m, m ∈ recE c d → goodNodeB m = true) :
    ∀ (children : List DomNode) (acc : List HtmlNode × RichTextBuilder),
    (∀ m, m ∈ acc.1 → goodNodeB m = true) →
    ∀ m, m ∈ (children.foldl (blockStep recE recI depth alignment) acc).1 →
      goodNodeB m = true := by
  intro children
  induction children with
  | nil => intro acc hacc m hm; exact hacc m hm
  | cons c cs ih =>
    intro acc hacc m hm
    exact ih (blockStep recE recI depth alignment acc c)
      (blockStep_good recE recI depth alignment hrec acc c hacc) m hm

/-- Every RichText or Heading node produced by the recursive parser has
text whose trim is non-empty, for every fuel and depth. -/
theorem parseElemF_good :
    ∀ (f : Nat) (el : DomNode) (depth : Nat) (n : HtmlNode),
    n ∈ parseElemF f el depth → goodNodeB n = true := by
  intro f
  induction f with
  | zero => intro el depth n hn; simp [parseElemF] at hn
  | succ f ih =>
    intro el depth n hn
    cases el with
    | text s => simp [parseElemF] at hn
    | elem tag attrs children =>
      simp only [parseElemF] at hn
      split at hn
      · simp at hn
        subst hn
        decide
      · -- main branch: mergeNodes of filtered results
        unfold mergeNodes at hn
        refine mergeRunF_good _ none _ ?_ n hn
        intro m hm
        rw [List.mem_filter] at hm
        have hm2 := hm.1
        simp only [List.mem_append] at hm2
        rcases hm2 with hm2 | hm2
        · exact foldl_blockStep_good _ _ depth (getAlignmentStyle attrs)
            (fun c d x hx => ih c d x hx) children.toList
            ([], RichTextBuilder.new) (by intro x hx; simp at hx) m hm2
        · exact flushNodes_good _ _ m hm2

/-- C6: for every parsed fragment, every RichText and Heading node in the
parser's output has a text value whose trim is non-empty; blank nodes are
dropped during flushing and the post-pass, never emitted. -/
theorem claim_C6_no_blank_nodes (root : DomNode) (n : HtmlNode)
    (h : n ∈ parse_fragment_nodes root) : goodNodeB n = true :=
  parseElemF_good (MAX_RECURSION_DEPTH + 2) root 0 n h

/-- C6 witness: the fragment `<html>hi</html>` parses to a RichText node
satisfying the invariant. -/
theorem claim_C6_witness :
    HtmlNode.richText ("hi".toList) none ∈
      parse_fragment_nodes
        (mkElem ("html".toList) [] [DomNode.text ("hi".toList)]) ∧
    goodNodeB (HtmlNode.richText ("hi".toList) none) = true :=
  ⟨by decide,
    claim_C6_no_blank_nodes
      (mkElem ("html".toList) [] [DomNode.text ("hi".toList)])
      (HtmlNode.richText ("hi".toList) none) (by decide)⟩

/-- Stripping a literal pattern succeeds exactly when the pattern is a prefix;
the input decomposes as pattern ++ rest. -/
theorem stripPat_decomp :
    ∀ (p l r : List Char), stripPat p l = some r → l = p ++ r := by
  intro p
  induction p with
  | nil => intro l r h; cases h; rfl
  | cons x xs ih =>
    intro l r h
    cases l with
    | nil => simp [stripPat] at h
    | cons c cs =>
      unfold stripPat at h
      by_cases hx : (x == c) = true
      · rw [if_pos hx] at h
        have := ih cs r h
        have hxc : x = c := by simpa using hx
        rw [hxc, this]
        rfl
      · rw [if_neg hx] at h
        simp at h

/-- Stripping a pattern from the pattern followed by anything returns that
anything. -/
theorem stripPat_self :
    ∀ (p r : List Char), stripPat p (p ++ r) = some r := by
  intro p
  induction p with
  | nil => intro r; rfl
  | cons x xs ih =>
    intro r
    show stripPat (x :: xs) (x :: (xs ++ r)) = some r
    unfold stripPat
    simp [ih r]

/-- A successful pattern strip is stable under appending a suffix. -/
theorem stripPat_append (p l r v : List Char) (h : stripPat p l = some r) :
    stripPat p (l ++ v) = some (r ++ v) := by
  rw [stripPat_decomp p l r h, List.append_assoc]
  exact stripPat_self p (r ++ v)

/-- The head of a non-empty takeWhile result satisfies the predicate. -/
theorem tw_head (q : Char → Bool) :
    ∀ (l : List Char) (c : Char) (t : List Char),
    List.takeWhile q l = c :: t → q c = true := by
  intro l
  induction l with
  | nil => intro c t h; simp at h
  | cons x xs ih =>
    intro c t h
    rw [List.takeWhile_cons] at h
    cases hx : q x with
    | true => rw [hx] at h; simp at h; rw [← h.1]; exact hx
    | false => rw [hx] at h; simp at h

/-- A successful `RE_ADJACENT_CLR` head match decomposes the input as
match ++ rest, with the match `</color><color=#` ++ capture ++ `>` and a hex
digit heading the capture. -/
theorem tryAdj_decomp (l m cap rest : List Char)
    (h : tryAdj l = some (m, cap, rest)) :
    l = m ++ rest ∧ m = adjPat ++ cap ++ ['>'] ∧
    ∃ c cs, cap = c :: cs ∧ isHexDig c = true := by
  cases hs : stripPat adjPat l with
  | none => simp [tryAdj, hs] at h
  | some l1 =>
    simp only [tryAdj, hs] at h
    split at h
    case isFalse => simp at h
    case isTrue hlen =>
      cases hd : List.dropWhile isHexDig l1 with
      | nil => rw [hd] at h; simp at h
      | cons d ds =>
        rw [hd] at h
        replace h : (if d = '>' then
            some (adjPat ++ List.takeWhile isHexDig l1 ++ ['>'],
              List.takeWhile isHexDig l1, ds)
          else none) = some (m, cap, rest) := h
        by_cases hgt : d = '>'
        · subst hgt
          rw [if_pos rfl] at h
          simp only [Option.some_inj, Prod.mk.injEq] at h
          obtain ⟨hm, hcap, hrest⟩ := h
          have hdec := stripPat_decomp adjPat l l1 hs
          have hl1 : l1 = List.takeWhile isHexDig l1 ++ '>' :: ds := by
            conv_lhs => rw [← List.takeWhile_append_dropWhile isHexDig l1]
            rw [hd]
          refine ⟨?_, ?_, ?_⟩
          · rw [hdec, hl1, ← hm, ← hrest]
            simp
          · rw [← hm, ← hcap]
          · cases htw : List.takeWhile isHexDig l1 with
            | nil =>
              rw [htw] at hlen
              simp at hlen
            | cons c cs =>
              refine ⟨c, cs, ?_, tw_head isHexDig l1 c cs htw⟩
              rw [← hcap, htw]
        · rw [if_neg hgt] at h
          simp at h

/-- A Bool prefix test certifies a list decomposition. -/
theorem subPfx_decomp :
    ∀ (p l : List Char), subPfx p l = true → ∃ r, l = p ++ r := by
  intro p
  induction p with
  | nil => intro l _; exact ⟨l, rfl⟩
  | cons x xs ih =>
    intro l h
    cases l with
    | nil => simp [subPfx] at h
    | cons c cs =>
      unfold subPfx at h
      rw [Bool.and_eq_true] at h
      obtain ⟨r, hr⟩ := ih cs h.2
      have : x = c := by simpa using h.1
      exact ⟨r, by rw [hr, this]; rfl⟩

/-- `rfindColorOpen` reports a position where `<color=#` is a prefix of the
corresponding suffix. -/
theorem rfind_at (l : List Char) :
    ∀ i, rfindColorOpen l = some i → subPfx colorOpenPat (l.drop i) = true := by
  induction l with
  | nil => intro i h; simp [rfindColorOpen] at h
  | cons c t ih =>
    intro i h
    unfold rfindColorOpen at h
    cases hr : rfindColorOpen t with
    | some j =>
      rw [hr] at h
      rw [Option.some_inj] at h
      subst h
      show subPfx colorOpenPat ((c :: t).drop (j + 1)) = true
      rw [List.drop_succ_cons]
      exact ih j hr
    | none =>
      rw [hr] at h
      by_cases hp : subPfx colorOpenPat (c :: t) = true
      · rw [if_pos hp] at h
        rw [Option.some_inj] at h
        subst h
        exact hp
      · rw [if_neg hp] at h
        simp at h

/-- The previous-color slice of the pass-1 loop starts at offset `last + 7`,
which is the `#` of `<color=#`: whenever it is non-empty its head is `#`. -/
theorem prevColor_shape (before p : List Char)
    (h : prevColorOf before = some p) :
    p = [] ∨ ∃ t, p = '#' :: t := by
  unfold prevColorOf at h
  cases hr : rfindColorOpen before with
  | none => rw [hr] at h; simp at h
  | some i =>
    rw [hr] at h
    replace h : (match List.findIdx? (fun c => c == '>')
        (List.drop (i + 7) before) with
      | some j => some (List.take j (List.drop (i + 7) before))
      | none => none) = some p := h
    have hsub := rfind_at before i hr
    obtain ⟨r, hdrop⟩ := subPfx_decomp colorOpenPat (List.drop i before) hsub
    have hdrop7 : List.drop (i + 7) before = '#' :: r := by
      have h1 : List.drop (i + 7) before = List.drop 7 (List.drop i before) := by
        rw [List.drop_drop]
      rw [h1, hdrop]
      rfl
    rw [hdrop7] at h
    cases hf : List.findIdx? (fun c => c == '>') ('#' :: r) with
    | none => rw [hf] at h; simp at h
    | some j =>
      rw [hf] at h
      rw [Option.some_inj] at h
      cases j with
      | zero =>
        rw [List.findIdx?_cons] at hf
        simp at hf
      | succ j2 =>
        right
        exact ⟨r.take j2, by rw [← h]; rfl⟩

/-- `#` never equals a hex digit ignoring ASCII case. -/
theorem chEqIC_hash_hex (c : Char) (h : isHexDig c = true) :
    chEqIC '#' c = false := by
  unfold isHexDig at h
  simp only [Bool.or_eq_true, Bool.and_eq_true, decide_eq_true_eq] at h
  show (asciiLowerN ('#'.toNat) == asciiLowerN c.toNat) = false
  rw [show ('#'.toNat) = 35 from rfl]
  generalize c.toNat = n at h
  unfold asciiLowerN
  rw [if_neg (by omega : ¬(65 ≤ 35 ∧ 35 ≤ 90))]
  by_cases h2 : 65 ≤ n ∧ n ≤ 90
  · rw [if_pos h2]
    simp only [beq_eq_false_iff_ne, ne_eq]
    omega
  · rw [if_neg h2]
    simp only [beq_eq_false_iff_ne, ne_eq]
    omega

/-- A string starting with `#` never equals, ignoring ASCII case, a capture
that starts with a hex digit. -/
theorem eqIC_hash_false (t cap : List Char)
    (hcap : ∃ c cs, cap = c :: cs ∧ isHexDig c = true) :
    eqIgnoreCaseL ('#' :: t) cap = false := by
  obtain ⟨c, cs, hc, hhex⟩ := hcap
  subst hc
  unfold eqIgnoreCaseL
  rw [chEqIC_hash_hex c hhex]
  rfl

/-- The pass-1 keep condition is always true: the extracted previous color
retains its leading `#` while the regex capture never has one, so the
case-insensitive comparison always fails.  This is the prev-color slice bug
that makes the adjacent-wrapper collapse dead code. -/
theorem keepAdj_true (before cap : List Char)
    (hcap : ∃ c cs, cap = c :: cs ∧ isHexDig c = true) :
    keepAdj before cap = true := by
  unfold keepAdj
  cases hp : prevColorOf before with
  | none => rfl
  | some p =>
    rcases prevColor_shape before p hp with hnil | ⟨t, hht⟩
    · subst hnil
      obtain ⟨c, cs, hc, _⟩ := hcap
      subst hc
      rfl
    · subst hht
      show (!eqIgnoreCaseL ('#' :: t) cap) = true
      rw [eqIC_hash_false t cap hcap]
      rfl

/-- With enough fuel, the pass-1 scanner reproduces its input unchanged:
every `</color><color=#..>` match is re-emitted because `keepAdj` always
holds. -/
theorem pass1F_id :
    ∀ (f : Nat) (l before : List Char), l.length < f →
    pass1F f before l = l := by
  intro f
  induction f with
  | zero => intro l before h; omega
  | succ f ih =>
    intro l before
    have hunf : pass1F (Nat.succ f) before l =
        (match tryAdj l with
         | some (m, cap, rest) =>
           (if keepAdj before cap = true then m else []) ++
             pass1F f (before ++ m) rest
         | none =>
           match l with
           | [] => []
           | c :: t => c :: pass1F f (before ++ [c]) t) := rfl
    intro h
    rw [hunf]
    cases ha : tryAdj l with
    | some trip =>
      obtain ⟨m, cap, rest⟩ := trip
      obtain ⟨hlm, hm, hcap⟩ := tryAdj_decomp l m cap rest ha
      show (if keepAdj before cap = true then m else []) ++
          pass1F f (before ++ m) rest = l
      rw [keepAdj_true before cap hcap]
      simp only [if_true]
      have hrest : rest.length < f := by
        have hll : l.length = m.length + rest.length := by
          rw [hlm, List.length_append]
        have hmlen : 0 < m.length := by
          rw [hm]
          simp [adjPat]
        omega
      rw [ih rest (before ++ m) hrest]
      exact hlm.symm
    | none =>
      cases l with
      | nil => rfl
      | cons c tl =>
        have htl : tl.length < f := by
          simp at h
          omega
        show c :: pass1F f (before ++ [c]) tl = c :: tl
        rw [ih tl (before ++ [c]) htl]

/-- Pass 1 of flush normalization is the identity on every input. -/
theorem pass1_id (l : List Char) : pass1 l = l :=
  pass1F_id (l.length + 1) l [] (by omega)

/-- A successful `RE_EMPTY_COLOR` head match decomposes the input as
`<color=#` ++ hex-run ++ `>` ++ whitespace ++ `</color>` ++ rest. -/
theorem tryEC_decomp (l r : List Char) (h : tryEC l = some r) :
    ∃ l1 l3, stripPat colorOpenPat l = some l1 ∧
      List.dropWhile isHexDig l1 = '>' :: l3 ∧
      (6 ≤ (List.takeWhile isHexDig l1).length ∧
        (List.takeWhile isHexDig l1).length ≤ 8) ∧
      List.dropWhile isWsC l3 = colorClosePat ++ r := by
  cases hs : stripPat colorOpenPat l with
  | none => simp [tryEC, hs] at h
  | some l1 =>
    simp only [tryEC, hs] at h
    split at h
    case isFalse => simp at h
    case isTrue hlen =>
      cases hd : List.dropWhile isHexDig l1 with
      | nil => rw [hd] at h; simp at h
      | cons d ds =>
        rw [hd] at h
        replace h : (if d = '>' then
            stripPat colorClosePat (ds.dropWhile isWsC) else none) = some r := h
        by_cases hgt : d = '>'
        · subst hgt
          rw [if_pos rfl] at h
          refine ⟨l1, ds, rfl, hd, ?_, stripPat_decomp _ _ _ h⟩
          simpa using hlen
        · rw [if_neg hgt] at h
          simp at h

/-- An empty-color match consumes at least 17 characters. -/
theorem tryEC_length (l r : List Char) (h : tryEC l = some r) :
    r.length + 17 ≤ l.length := by
  obtain ⟨l1, l3, hs, hd, hlen, hw⟩ := tryEC_decomp l r h
  have h1 : l = colorOpenPat ++ l1 := stripPat_decomp _ _ _ hs
  have h2 : l1 = List.takeWhile isHexDig l1 ++ '>' :: l3 := by
    conv_lhs => rw [← List.takeWhile_append_dropWhile isHexDig l1]
    rw [hd]
  have h3 : (List.dropWhile isWsC l3).length ≤ l3.length :=
    (List.dropWhile_suffix isWsC).length_le
  have h4 : (List.dropWhile isWsC l3).length = 8 + r.length := by
    rw [hw, List.length_append]
    rfl
  have h5 : l.length = 8 + l1.length := by
    rw [h1, List.length_append]
    rfl
  have h6 := congrArg List.length h2
  rw [List.length_append, List.length_cons] at h6
  omega

/-- When `dropWhile` leaves a non-empty rest, takeWhile/dropWhile of the
list with a suffix appended split at the same point. -/
theorem tw_break (q : Char → Bool) :
    ∀ (a b : List Char) (d : Char) (ds : List Char),
    List.dropWhile q a = d :: ds →
    List.takeWhile q (a ++ b) = List.takeWhile q a ∧
    List.dropWhile q (a ++ b) = (d :: ds) ++ b := by
  intro a
  induction a with
  | nil => intro b d ds h; simp at h
  | cons x xs ih =>
    intro b d ds h
    rw [List.dropWhile_cons] at h
    by_cases hx : q x = true
    · rw [if_pos hx] at h
      obtain ⟨ht, hdw⟩ := ih b d ds h
      constructor
      · show List.takeWhile q (x :: (xs ++ b)) = _
        rw [List.takeWhile_cons, if_pos hx, ht, List.takeWhile_cons, if_pos hx]
      · show List.dropWhile q (x :: (xs ++ b)) = _
        rw [List.dropWhile_cons, if_pos hx, hdw]
    · rw [if_neg hx] at h
      have hxd : x = d ∧ xs = ds := by
        constructor <;> [exact (List.cons.injEq .. ▸ h).1;
          exact (List.cons.injEq .. ▸ h).2]
      constructor
      · show List.takeWhile q (x :: (xs ++ b)) = _
        rw [List.takeWhile_cons, List.takeWhile_cons]
        simp only [hx]
        rfl
      · show List.dropWhile q (x :: (xs ++ b)) = _
        rw [List.dropWhile_cons]
        simp only [hx]
        rw [hxd.1, hxd.2]
        rfl

/-- A successful empty-color head match is stable under appending a
suffix. -/
theorem tryEC_extend (l r v : List Char) (h : tryEC l = some r) :
    tryEC (l ++ v) = some (r ++ v) := by
  obtain ⟨l1, l3, hs, hd, hlen, hw⟩ := tryEC_decomp l r h
  have hs2 : stripPat colorOpenPat (l ++ v) = some (l1 ++ v) :=
    stripPat_append _ _ _ _ hs
  obtain ⟨htw, hdw⟩ := tw_break isHexDig l1 v '>' l3 hd
  have hl3ne : List.dropWhile isWsC l3 = colorClosePat ++ r := hw
  have hcne : ∃ d ds, List.dropWhile isWsC l3 = d :: ds := by
    rw [hl3ne]
    exact ⟨'<', _, rfl⟩
  obtain ⟨d, ds, hdds⟩ := hcne
  obtain ⟨_, hdw3⟩ := tw_break isWsC l3 v d ds hdds
  show tryEC (l ++ v) = some (r ++ v)
  unfold tryEC
  rw [hs2]
  simp only [htw, hdw]
  rw [if_pos (by simpa using hlen)]
  show (if '>' = '>' then
      stripPat colorClosePat ((l3 ++ v).dropWhile isWsC) else none) = some (r ++ v)
  rw [if_pos rfl]
  rw [hdw3]
  have hrw : (d :: ds : List Char) = colorClosePat ++ r := hdds.symm.trans hl3ne
  rw [hrw, List.append_assoc]
  exact stripPat_self colorClosePat (r ++ v)

/-- The pass-2 scanner never grows its input. -/
theorem p2_len : ∀ (f : Nat) (l : List Char), (pass2F f l).length ≤ l.length := by
  intro f
  induction f with
  | zero => intro l; simp [pass2F]
  | succ f ih =>
    intro l
    cases l with
    | nil => simp [pass2F]
    | cons c t =>
      have hunf : pass2F (Nat.succ f) (c :: t) =
          (match tryEC (c :: t) with
           | some rest => pass2F f rest
           | none => c :: pass2F f t) := rfl
      rw [hunf]
      cases ha : tryEC (c :: t) with
      | some rest =>
        have h17 := tryEC_length (c :: t) rest ha
        have := ih rest
        simp only [List.length_cons] at h17 ⊢
        omega
      | none =>
        show (c :: pass2F f t).length ≤ (c :: t).length
        simp only [List.length_cons]
        exact Nat.succ_le_succ (ih t)

/-- If pass 2 preserves the length, no position of the input matches
`RE_EMPTY_COLOR`: every match would delete at least 17 characters. -/
theorem p2_eq_imp_noM :
    ∀ (f : Nat) (l : List Char), l.length < f →
    (pass2F f l).length = l.length → hasM l = false := by
  intro f
  induction f with
  | zero => intro l h; omega
  | succ f ih =>
    intro l hf hlen
    cases l with
    | nil => rfl
    | cons c t =>
      have hunf : pass2F (Nat.succ f) (c :: t) =
          (match tryEC (c :: t) with
           | some rest => pass2F f rest
           | none => c :: pass2F f t) := rfl
      rw [hunf] at hlen
      cases ha : tryEC (c :: t) with
      | some rest =>
        rw [ha] at hlen
        have h17 := tryEC_length (c :: t) rest ha
        have hle := p2_len f rest
        simp only [List.length_cons] at hlen h17
        omega
      | none =>
        rw [ha] at hlen
        replace hlen : (c :: pass2F f t).length = (c :: t).length := hlen
        simp only [List.length_cons] at hlen hf
        have ht : hasM t = false := ih t (by omega) (by omega)
        show ((tryEC (c :: t)).isSome || hasM t) = false
        rw [ha, ht]
        rfl

/-- On inputs with no empty-color match anywhere, the pass-2 scanner is the
identity. -/
theorem p2_id_of_noM :
    ∀ (f : Nat) (l : List Char), l.length < f →
    hasM l = false → pass2F f l = l := by
  intro f
  induction f with
  | zero => intro l h; omega
  | succ f ih =>
    intro l hf hm
    cases l with
    | nil => rfl
    | cons c t =>
      have hunf : pass2F (Nat.succ f) (c :: t) =
          (match tryEC (c :: t) with
           | some rest => pass2F f rest
           | none => c :: pass2F f t) := rfl
      rw [hunf]
      replace hm : ((tryEC (c :: t)).isSome || hasM t) = false := hm
      rw [Bool.or_eq_false_iff] at hm
      cases ha : tryEC (c :: t) with
      | some rest =>
        rw [ha] at hm
        simp at hm
      | none =>
        show c :: pass2F f t = c :: t
        simp only [List.length_cons] at hf
        rw [ih t (by omega) hm.2]

/-- An empty-color match survives appending characters on the right. -/
theorem hasM_extend_right :
    ∀ (s v : List Char), hasM s = true → hasM (s ++ v) = true := by
  intro s
  induction s with
  | nil => intro v h; simp [hasM] at h
  | cons c t ih =>
    intro v h
    replace h : ((tryEC (c :: t)).isSome || hasM t) = true := h
    show ((tryEC (c :: (t ++ v))).isSome || hasM (t ++ v)) = true
    rw [Bool.or_eq_true] at h
    rcases h with h | h
    · cases ha : tryEC (c :: t) with
      | none => rw [ha] at h; simp at h
      | some r =>
        have := tryEC_extend (c :: t) r v ha
        rw [show (c :: t) ++ v = c :: (t ++ v) from rfl] at this
        rw [this]
        rfl
    · rw [ih v h]
      simp

/-- An empty-color match survives prepending characters on the left. -/
theorem hasM_extend_left :
    ∀ (u s : List Char), hasM s = true → hasM (u ++ s) = true := by
  intro u
  induction u with
  | nil => intro s h; exact h
  | cons x xs ih =>
    intro s h
    show ((tryEC (x :: (xs ++ s))).isSome || hasM (xs ++ s)) = true
    rw [ih s h]
    simp

/-- The trimmed text is an infix of the original. -/
theorem trim_infix (l : List Char) :
    ∃ u v, l = u ++ trimWs l ++ v := by
  obtain ⟨j, hj⟩ := rdrop_decomp (l.dropWhile isWsC)
  refine ⟨List.takeWhile isWsC l, j, ?_⟩
  show l = List.takeWhile isWsC l ++ trimWs l ++ j
  calc l = List.takeWhile isWsC l ++ List.dropWhile isWsC l :=
        (List.takeWhile_append_dropWhile isWsC l).symm
    _ = List.takeWhile isWsC l ++ (trimWs l ++ j) := by
        rw [show trimWs l = rdropWs (List.dropWhile isWsC l) from rfl, ← hj]
    _ = List.takeWhile isWsC l ++ trimWs l ++ j := by
        rw [List.append_assoc]

/-- Trimming cannot create an empty-color match: a match inside the trimmed
text would already be a match of the full text. -/
theorem noM_trim (l : List Char) (h : hasM l = false) :
    hasM (trimWs l) = false := by
  by_contra hc
  rw [Bool.not_eq_false] at hc
  obtain ⟨u, v, huv⟩ := trim_infix l
  have : hasM l = true := by
    rw [huv, List.append_assoc]
    exact hasM_extend_left u _ (hasM_extend_right _ v hc)
  rw [this] at h
  exact Bool.noConfusion h

/-- The flush fixpoint loop always ends in a buffer with no empty-color
match: the loop stops exactly when pass 2 preserved the length, and with
fuel above the length the stop is always reached because every other
iteration strictly shrinks the buffer. -/
theorem flushLoop_noM :
    ∀ (f : Nat) (b : List Char), b.length < f →
    hasM (flushLoopF f b) = false := by
  intro f
  induction f with
  | zero => intro b h; omega
  | succ f ih =>
    intro b hf
    have hunf : flushLoopF (Nat.succ f) b =
        (if (pass2 (pass1 b)).length == b.length then pass2 (pass1 b)
         else flushLoopF f (pass2 (pass1 b))) := rfl
    rw [hunf, pass1_id]
    by_cases hc : ((pass2 b).length == b.length) = true
    · rw [if_pos hc]
      have hlen : (pass2 b).length = b.length := by simpa using hc
      have hnm : hasM b = false :=
        p2_eq_imp_noM (b.length + 1) b (by omega) hlen
      have hid : pass2 b = b :=
        p2_id_of_noM (b.length + 1) b (by omega) hnm
      rw [hid]
      exact hnm
    · rw [if_neg hc]
      have hle : (pass2 b).length ≤ b.length := p2_len (b.length + 1) b
      have hne : (pass2 b).length ≠ b.length := by simpa using hc
      exact ih (pass2 b) (by omega)

/-- C9: the flush-normalization cleanup is idempotent - the text `flush`
emits from any buffer is a fixed point of both cleanup passes: pass 1 (the
adjacent same-color wrapper collapse, which is in fact the identity on all
inputs because of the prev-color slice bug) and pass 2 (the deletion of
color spans wrapping only whitespace, which can no longer fire after the
loop has stopped and trimming cannot re-create a match). -/
theorem claim_C9 (buf : List Char) :
    pass1 (flushedText buf) = flushedText buf ∧
    pass2 (flushedText buf) = flushedText buf := by
  constructor
  · exact pass1_id (flushedText buf)
  · have hnm : hasM (flushLoopF (buf.length + 1) buf) = false :=
      flushLoop_noM (buf.length + 1) buf (by omega)
    have hnt : hasM (flushedText buf) = false :=
      noM_trim (flushLoopF (buf.length + 1) buf) hnm
    exact p2_id_of_noM ((flushedText buf).length + 1) (flushedText buf)
      (by omega) hnt
